import Mathlib

/-!
Verification development for the enspara exemplar-based clustering engine.

The data model follows the specification of the repository: a data
collection is an ordered list of items, a metric is a two-argument
distance function with rational values, and the clustering state is the
ordered center list together with the per-item (assignment, distance)
tracker.  The clustering modules themselves (enspara/cluster/kcenters.py,
kmedoids.py, hybrid.py and util.py) are not part of the provided sources,
only their tests and the rmsd_cluster application; the corresponding
definitions below are therefore modelled from the specification text, as
their doc comments state.  The rmsd_cluster application definitions are
translated directly from src/enspara/apps/rmsd_cluster.py.
-/

namespace Enspara

/-- Error taxonomy of the repository (enspara.exception): a configuration
error for missing or contradictory options, a data-validity error for
malformed data such as partition lengths that do not sum to the item
count. -/
inductive EnspError where
  | improperlyConfigured
  | dataInvalid
deriving DecidableEq

/-- Left fold locating the earliest strict minimum of a list of distances.
The accumulator holds the best (index, value) seen so far, the counter is
the index of the head of the remaining list.  A later entry replaces the
accumulator only when it is strictly smaller, so ties keep the earliest
index. -/
def scanMin (acc : Nat × ℚ) (i : Nat) : List ℚ → Nat × ℚ
  | [] => acc
  | v :: vs => scanMin (if v < acc.2 then (i, v) else acc) (i + 1) vs

/-- Earliest minimum of a distance list as an (index, value) pair; used to
assign an item to its nearest center.  On the empty list it returns the
junk pair (0, 0), which no caller uses. -/
def nearestCenter (ds : List ℚ) : Nat × ℚ :=
  match ds with
  | [] => (0, 0)
  | v :: vs => scanMin (0, v) 1 vs

/-- Left fold locating the earliest strict maximum of a list of distances.
A later entry replaces the accumulator only when it is strictly larger, so
ties keep the earliest index, the tie-break rule the specification fixes
for determinism. -/
def scanMax (acc : Nat × ℚ) (i : Nat) : List ℚ → Nat × ℚ
  | [] => acc
  | v :: vs => scanMax (if acc.2 < v then (i, v) else acc) (i + 1) vs

/-- Earliest maximum of a distance list as an (index, value) pair; used to
locate the farthest point during K-Centers seeding. -/
def farthestPoint (ds : List ℚ) : Nat × ℚ :=
  match ds with
  | [] => (0, 0)
  | v :: vs => scanMax (0, v) 1 vs

/-- Modelled from the spec: the Nearest-Center Tracker update of section
4.1 (the implementation lives in the missing module enspara/cluster).
Given the label of a newly admitted center and the vector of distances
from every item to that center, any item whose distance to the new center
is strictly smaller than its currently recorded distance is reassigned to
the new label with the new distance; every other item is untouched. -/
def trackerUpd (lbl : Nat) (nds : List ℚ) (t : List (Nat × ℚ)) : List (Nat × ℚ) :=
  List.zipWith (fun nd q => if nd < q.2 then (lbl, nd) else q) nds t

/-- Configuration of a K-Centers run: optional radius stopping condition,
optional cardinality stopping condition, the flag selecting a randomized
first center, and the seed of the explicit pseudo-random generator that
the specification (section 9) threads through every call needing
randomness. -/
structure KCfg where
  distCutoff : Option ℚ
  nClusters : Option Nat
  randomFirstCenter : Bool
  seed : Nat
deriving DecidableEq

/-- Clustering state: the ordered list of admitted center indices and the
tracker list holding, for every item, its assigned center label and its
distance to that center. -/
structure KCState where
  ctrs : List Nat
  track : List (Nat × ℚ)
deriving DecidableEq

/-- Radius stopping condition of the specification, section 4.2: stop when
the maximum tracked distance is at most the configured cluster radius. -/
def radiusStop (cfg : KCfg) (m : ℚ) : Bool :=
  match cfg.distCutoff with
  | some r => decide (m ≤ r)
  | none => false

/-- Cardinality stopping condition of the specification, section 4.2: stop
when the number of admitted centers equals the configured cluster
count. -/
def countStop (cfg : KCfg) (k : Nat) : Bool :=
  match cfg.nClusters with
  | some n => n == k
  | none => false

/-- Modelled from the spec: the greedy farthest-point loop of the
K-Centers engine (section 4.2; the module enspara/cluster/kcenters.py is
absent from the sources).  Each iteration locates the item with the
maximum tracked distance, stops if the radius condition, the cardinality
condition or exhaustion of all items holds, and otherwise admits that
farthest item as a new center and updates the tracker.  The fuel argument
makes the recursion structural; callers pass the item count, which bounds
the number of admissions. -/
def kcLoop [Inhabited α] (d : α → α → ℚ) (X : List α) (cfg : KCfg) :
    Nat → KCState → KCState
  | 0, s => s
  | fuel + 1, s =>
    let far := farthestPoint (s.track.map Prod.snd)
    if radiusStop cfg far.2 then s
    else if countStop cfg s.ctrs.length then s
    else if X.length ≤ s.ctrs.length then s
    else
      let c := X.getD far.1 default
      kcLoop d X cfg fuel
        { ctrs := s.ctrs ++ [far.1],
          track := trackerUpd s.ctrs.length (X.map (fun x => d c x)) s.track }

/-- Modelled from the spec: initial state of a K-Centers run (section 4.2,
step 1).  The first center is a fixed first item in deterministic mode and
a seed-determined item in randomized mode; the tracker starts with every
item assigned label 0 at its distance to that sole center. -/
def kcInit [Inhabited α] (d : α → α → ℚ) (X : List α) (cfg : KCfg) : KCState :=
  let j0 := if cfg.randomFirstCenter then cfg.seed % X.length else 0
  let c := X.getD j0 default
  { ctrs := [j0], track := X.map (fun x => (0, d c x)) }

/-- Modelled from the spec: a complete K-Centers seeding run, returning
the final center list and tracker. -/
def kcentersState [Inhabited α] (d : α → α → ℚ) (X : List α) (cfg : KCfg) : KCState :=
  kcLoop d X cfg X.length (kcInit d X cfg)

/-- Result bundle of a clustering run: ordered center indices, per-item
assignments and distances, and the realized center items. -/
structure ClusterResult (α : Type) where
  centerIndices : List Nat
  assignments : List Nat
  distances : List ℚ
  centers : List α
deriving DecidableEq

/-- Freeze a clustering state into a result, materializing the center
items from the data collection. -/
def resultOfState [Inhabited α] (X : List α) (s : KCState) : ClusterResult α :=
  { centerIndices := s.ctrs,
    assignments := s.track.map Prod.fst,
    distances := s.track.map Prod.snd,
    centers := s.ctrs.map (fun c => X.getD c default) }

/-- Modelled from the spec: the K-Centers entry point (sections 4.2 and
6).  It fails eagerly with a configuration error when neither the radius
target nor the cardinality target is supplied, before any clustering state
is built, and otherwise runs the seeding loop to completion. -/
def kcenters [Inhabited α] (d : α → α → ℚ) (X : List α) (cfg : KCfg) :
    Except EnspError (ClusterResult α) :=
  if cfg.distCutoff = none ∧ cfg.nClusters = none then
    Except.error EnspError.improperlyConfigured
  else
    Except.ok (resultOfState X (kcentersState d X cfg))

/-- Maximum distance of the members of cluster c recorded in the tracker,
zero when the cluster has no members. -/
def clusterMaxDist (c : Nat) (t : List (Nat × ℚ)) : ℚ :=
  ((t.filter (fun q => q.1 == c)).map Prod.snd).foldl max 0

/-- Modelled from the spec: one tentative medoid swap of the K-Medoids
engine (section 4.3, steps 3 and 4; enspara/cluster/kmedoids.py is absent
from the sources).  Distances from the proposed medoid are recomputed for
the members of cluster c only; the swap is accepted iff it does not
increase the maximum member distance of that cluster, in which case the
center at position c is replaced and the members of c take their distance
to the new medoid. -/
def medoidSwapStep [Inhabited α] (d : α → α → ℚ) (X : List α)
    (p : Nat) (c : Nat) (s : KCState) : KCState :=
  let nds := X.map (fun x => d (X.getD p default) x)
  let t2 := List.zipWith (fun nd q => if q.1 = c then (c, nd) else q) nds s.track
  if clusterMaxDist c t2 ≤ clusterMaxDist c s.track then
    { ctrs := s.ctrs.set c p, track := t2 }
  else s

/-- Modelled from the spec: one K-Medoids update round with an explicitly
supplied proposal per cluster label, the form the tests drive directly.
Labels are processed in order; each label applies one tentative medoid
swap. -/
def kmedoidsPamUpdate [Inhabited α] (d : α → α → ℚ) (X : List α)
    (proposals : List Nat) (s : KCState) : KCState :=
  ((List.range s.ctrs.length).zip proposals).foldl
    (fun st cp => medoidSwapStep d X cp.2 cp.1 st) s

/-- Modelled from the spec: the seeded uniform draw of a replacement
medoid from the members of cluster c (section 4.3, step 2).  The explicit
seed replaces process-wide random state per the design note of section 9;
the draw selects the member whose ordinal is the seed reduced modulo the
member count. -/
def proposeMember (seed c : Nat) (t : List (Nat × ℚ)) : Nat :=
  let members := (t.enum.filter (fun q => q.2.1 == c)).map Prod.fst
  members.getD (seed % members.length) 0

/-- Modelled from the spec: one seeded K-Medoids update round, drawing
each proposal from the current members of the processed cluster. -/
def kmedoidsRound [Inhabited α] (d : α → α → ℚ) (X : List α)
    (seed : Nat) (s : KCState) : KCState :=
  (List.range s.ctrs.length).foldl
    (fun st c => medoidSwapStep d X (proposeMember (seed + c) c st.track) c st) s

/-- Modelled from the spec: a configured number of seeded K-Medoids update
rounds, the round counter salting the seed so rounds draw fresh
proposals. -/
def kmedoidsRounds [Inhabited α] (d : α → α → ℚ) (X : List α)
    (seed : Nat) : Nat → KCState → KCState
  | 0, s => s
  | n + 1, s => kmedoidsRounds d X (seed + 1) n (kmedoidsRound d X seed s)

/-- Modelled from the spec: the hybrid entry point (section 4.4), running
K-Centers seeding to completion and then a configured number of medoid
refinement rounds.  Like K-Centers it fails eagerly with a configuration
error when neither stopping target is supplied. -/
def khybrid [Inhabited α] (d : α → α → ℚ) (X : List α) (cfg : KCfg)
    (updates : Nat) : Except EnspError (ClusterResult α) :=
  if cfg.distCutoff = none ∧ cfg.nClusters = none then
    Except.error EnspError.improperlyConfigured
  else
    Except.ok (resultOfState X
      (kmedoidsRounds d X cfg.seed updates (kcentersState d X cfg)))

/-- Modelled from the spec: the prediction entry point (section 6).  Every
item of the new collection is assigned the label of and the distance to
its nearest center of the fixed supplied center set; the center set is
returned unchanged and no center index bookkeeping is recomputed. -/
def predict (d : α → α → ℚ) (ctrs : List α) (X : List α) : ClusterResult α :=
  { centerIndices := [],
    assignments := X.map (fun x => (nearestCenter (ctrs.map (fun c => d c x))).1),
    distances := X.map (fun x => (nearestCenter (ctrs.map (fun c => d c x))).2),
    centers := ctrs }

/-- Split a flat list into consecutive segments of the given lengths. -/
def splitByLengths : List Nat → List β → List (List β)
  | [], _ => []
  | L :: ls, xs => xs.take L :: splitByLengths ls (xs.drop L)

/-- Translate a flat item index into a (segment index, offset within
segment) pair with respect to a list of segment lengths. -/
def locateSegment : List Nat → Nat → Nat × Nat
  | [], c => (0, c)
  | L :: ls, c =>
    if c < L then (0, c)
    else
      let p := locateSegment ls (c - L)
      (p.1 + 1, p.2)

/-- Per-segment view of a clustering result: center coordinates as
(segment, offset) pairs, assignments and distances re-expressed per
segment, and the untouched realized centers. -/
structure PartitionedResult (α : Type) where
  centerPairs : List (Nat × Nat)
  assignSegs : List (List Nat)
  distSegs : List (List ℚ)
  centers : List α
deriving DecidableEq

/-- Modelled from the spec: the partition operation of ClusterResult
(section 3; enspara/cluster/util.py is absent from the sources).  When the
segment lengths sum to the item count it is a pure reshape of the
assignment and distance vectors with center indices re-expressed as
(segment, offset) pairs; otherwise it raises the data-validity error. -/
def partitionResult (r : ClusterResult α) (lengths : List Nat) :
    Except EnspError (PartitionedResult α) :=
  if lengths.sum = r.assignments.length then
    Except.ok
      { centerPairs := r.centerIndices.map (locateSegment lengths),
        assignSegs := splitByLengths lengths r.assignments,
        distSegs := splitByLengths lengths r.distances,
        centers := r.centers }
  else
    Except.error EnspError.dataInvalid

/-- Every W-th element of a list starting at its head; shard w of a
collection is this applied after dropping the first w elements, matching
the row-sharding of the tests where worker w holds rows w, w + W,
w + 2W, and so on. -/
def strideEvery (W : Nat) : List β → List β
  | [] => []
  | x :: xs => x :: strideEvery W (xs.drop (W - 1))
termination_by l => l.length
decreasing_by simp only [List.length_drop, List.length_cons]; omega

/-- Row shards of a collection across W workers, in rank order. -/
def shardsOf (W : Nat) (l : List β) : List (List β) :=
  (List.range W).map (fun w => strideEvery W (l.drop w))

/-- Modelled from the spec: the per-worker half of the distributed
farthest-point reduction (section 4.5).  Each worker with a nonempty shard
reduces its local distance vector to its local earliest maximum and
publishes it as a candidate carrying the global index of that item, which
for worker rank w and local row i is w + i * W under the row-sharding of
the tests. -/
def mpiCands (W w : Nat) : List (List ℚ) → List (Nat × ℚ)
  | [] => []
  | ds :: rest =>
    (if ds.isEmpty then []
     else [(w + (farthestPoint ds).1 * W, (farthestPoint ds).2)])
    ++ mpiCands W (w + 1) rest

/-- Combining operation of the all-reduce-max-with-location collective:
keep the candidate with the larger distance, breaking ties toward the
lower global index, the deterministic lowest-index tie-break the
specification fixes so all workers agree on one global farthest point. -/
def combineMaxLoc (a b : Nat × ℚ) : Nat × ℚ :=
  if a.2 < b.2 then b
  else if b.2 < a.2 then a
  else if a.1 ≤ b.1 then a
  else b

/-- Modelled from the spec: the all-reduce step determining the single
next global center from the per-worker candidates (section 4.5); none
means every shard is empty. -/
def reduceMaxLoc : List (Nat × ℚ) → Option (Nat × ℚ)
  | [] => none
  | cand :: cands => some (cands.foldl combineMaxLoc cand)

/-- Distributed clustering state: globally agreed center identifiers as
(rank, local index) pairs, and the per-worker tracker slices. -/
structure MpiState where
  ctrs : List (Nat × Nat)
  tracks : List (List (Nat × ℚ))
deriving DecidableEq

/-- Total item count across all workers, computed from the shard lengths
as the all-gather-of-counts collective of the specification does. -/
def mpiTotalLen (tracks : List (List (Nat × ℚ))) : Nat :=
  (tracks.map List.length).sum

/-- Item lookup inside a sharded collection by (rank, local index). -/
def shardGet [Inhabited α] (sh : List (List α)) (w i : Nat) : α :=
  (sh.getD w []).getD i default

/-- Modelled from the spec: the distributed K-Centers loop (section 4.5;
the function kcenters_mpi of the missing module enspara/cluster/kcenters
is exercised by the tests only).  Every iteration reduces the per-worker
local maxima to the single global farthest point, applies the same
stopping conditions as the single-process loop on the globally reduced
values, and on admission broadcasts the feature data of the chosen center
so every worker updates its own tracker slice locally. -/
def kcMpiLoop [Inhabited α] (d : α → α → ℚ) (sh : List (List α)) (W : Nat)
    (cfg : KCfg) : Nat → MpiState → MpiState
  | 0, s => s
  | fuel + 1, s =>
    match reduceMaxLoc (mpiCands W 0 (s.tracks.map (List.map Prod.snd))) with
    | none => s
    | some best =>
      if radiusStop cfg best.2 then s
      else if countStop cfg s.ctrs.length then s
      else if mpiTotalLen s.tracks ≤ s.ctrs.length then s
      else
        let c := shardGet sh (best.1 % W) (best.1 / W)
        kcMpiLoop d sh W cfg fuel
          { ctrs := s.ctrs ++ [(best.1 % W, best.1 / W)],
            tracks := List.zipWith
              (fun shw tw => trackerUpd s.ctrs.length (shw.map (fun x => d c x)) tw)
              sh s.tracks }

/-- Modelled from the spec: initial state of a distributed K-Centers run.
The globally agreed first item is chosen exactly as in the single-process
engine from the global item count, its feature data is broadcast, and
every worker initializes its own tracker slice against it. -/
def kcMpiInit [Inhabited α] (d : α → α → ℚ) (sh : List (List α)) (W : Nat)
    (cfg : KCfg) : MpiState :=
  let n := (sh.map List.length).sum
  let j0 := if cfg.randomFirstCenter then cfg.seed % n else 0
  let c := shardGet sh (j0 % W) (j0 / W)
  { ctrs := [(j0 % W, j0 / W)],
    tracks := sh.map (fun shw => shw.map (fun x => (0, d c x))) }

/-- Modelled from the spec: a complete distributed K-Centers run over the
given shards, returning the per-worker tracker slices and the (rank,
local index) center identifiers every worker agrees on. -/
def kcentersMpi [Inhabited α] (d : α → α → ℚ) (sh : List (List α)) (W : Nat)
    (cfg : KCfg) : MpiState :=
  kcMpiLoop d sh W cfg (sh.map List.length).sum (kcMpiInit d sh W cfg)

/-- Output files of the rmsd_cluster application. -/
inductive OutputFile where
  | centersFile
  | distancesFile
  | assignmentsFile
deriving DecidableEq

/-- Output behavior of the main function of
src/enspara/apps/rmsd_cluster.py, lines 270 to 289: the pickled centers
file is always written; the distances and assignments files are written
when subsampling is 1, and (overwriting those) when reassignment is not
suppressed; with --no-reassign and subsampling above 1 neither is
written. -/
def mainWrites (subsample : Nat) (noReassign : Bool) : List OutputFile :=
  [OutputFile.centersFile]
    ++ (if subsample = 1 then [OutputFile.distancesFile, OutputFile.assignmentsFile] else [])
    ++ (if noReassign then [] else [OutputFile.distancesFile, OutputFile.assignmentsFile])

/-- Command-line argument record of the rmsd_cluster application after
argparse, restricted to the fields its validation logic reads. -/
structure AppArgs where
  rmsdCutoff : Option ℚ
  nClusters : Option Nat
  trajectories : List (List String)
  topologies : List String
  atoms : List String
  subsample : Option Nat
  noReassign : Bool
deriving DecidableEq

/-- Validation chain of process_command_line in
src/enspara/apps/rmsd_cluster.py, lines 108 to 131: missing stopping
criteria fail first with the configuration error, then the atom-selection
count and the topology count are checked, a single atom selection is
replicated across trajectory sets, and an unspecified subsample defaults
to 1. -/
def processCommandLine (a : AppArgs) : Except EnspError AppArgs :=
  if a.rmsdCutoff = none ∧ a.nClusters = none then
    Except.error EnspError.improperlyConfigured
  else if a.atoms.length ≠ 1 ∧ a.atoms.length ≠ a.trajectories.length then
    Except.error EnspError.improperlyConfigured
  else if a.topologies.length ≠ a.trajectories.length then
    Except.error EnspError.improperlyConfigured
  else
    Except.ok
      { a with
        atoms := if a.atoms.length = 1 then
            (List.range a.trajectories.length).map (fun _ => a.atoms.headD "")
          else a.atoms,
        subsample := some (a.subsample.getD 1) }

/-- Discrete metric on rationals used by the concrete witness instances:
zero on identical items and one otherwise.  Its arithmetic-free values let
the kernel evaluate whole clustering runs. -/
def discMetric (x y : ℚ) : ℚ := if x = y then 0 else 1

/-- Concrete data collection used by the witness instances. -/
def sampleData : List ℚ := [0, 3, 10, 11]

/-- Concrete collection of identical items used by counterexample
instances. -/
def dupData : List ℚ := [0, 0]

/-! Characterization lemmas for the earliest-minimum scan. -/

theorem scanMin_append (l : List ℚ) (acc : Nat × ℚ) (i : Nat) (v : ℚ) :
    scanMin acc i (l ++ [v]) =
      if v < (scanMin acc i l).2 then (i + l.length, v) else scanMin acc i l := by
  induction l generalizing acc i with
  | nil => simp [scanMin]
  | cons u us ih =>
      have h1 : scanMin acc i ((u :: us) ++ [v]) =
          scanMin (if u < acc.2 then (i, u) else acc) (i + 1) (us ++ [v]) := rfl
      have h2 : scanMin acc i (u :: us) =
          scanMin (if u < acc.2 then (i, u) else acc) (i + 1) us := rfl
      rw [h1, h2, ih]
      have harith : i + 1 + us.length = i + (u :: us).length := by
        simp only [List.length_cons]
        omega
      rw [harith]

theorem scanMin_cases (l : List ℚ) (acc : Nat × ℚ) (i : Nat) :
    scanMin acc i l = acc ∨
      ∃ j, j < l.length ∧ l[j]? = some (scanMin acc i l).2 ∧
        (scanMin acc i l).1 = i + j := by
  induction l generalizing acc i with
  | nil => left; rfl
  | cons u us ih =>
      have h2 : scanMin acc i (u :: us) =
          scanMin (if u < acc.2 then (i, u) else acc) (i + 1) us := rfl
      rw [h2]
      rcases ih (if u < acc.2 then (i, u) else acc) (i + 1) with h | ⟨j, hj, hget, hfst⟩
      · rw [h]
        by_cases hu : u < acc.2
        · right
          refine ⟨0, by simp, ?_, ?_⟩
          · simp [hu]
          · simp [hu]
        · left
          simp [hu]
      · right
        refine ⟨j + 1, by simp only [List.length_cons]; omega, ?_, by omega⟩
        simpa using hget

theorem nearestCenter_attained (ds : List ℚ) (h : ds ≠ []) :
    (nearestCenter ds).1 < ds.length ∧
      ds[(nearestCenter ds).1]? = some (nearestCenter ds).2 := by
  match ds, h with
  | v :: vs, _ =>
      have h0 : nearestCenter (v :: vs) = scanMin (0, v) 1 vs := rfl
      rw [h0]
      rcases scanMin_cases vs (0, v) 1 with hc | ⟨j, hj, hget, hfst⟩
      · rw [hc]
        exact ⟨by simp, by simp [hc]⟩
      · rw [hfst]
        constructor
        · simp only [List.length_cons]
          omega
        · have : 1 + j = j + 1 := by omega
          rw [this, List.getElem?_cons_succ]
          exact hget

theorem nearestCenter_append (ds : List ℚ) (v : ℚ) (h : ds ≠ []) :
    nearestCenter (ds ++ [v]) =
      if v < (nearestCenter ds).2 then (ds.length, v) else nearestCenter ds := by
  match ds, h with
  | u :: us, _ =>
      have h1 : nearestCenter ((u :: us) ++ [v]) = scanMin (0, u) 1 (us ++ [v]) := rfl
      have h2 : nearestCenter (u :: us) = scanMin (0, u) 1 us := rfl
      rw [h1, h2, scanMin_append]
      have harith : 1 + us.length = (u :: us).length := by
        simp only [List.length_cons]
        omega
      rw [harith]

/-! Characterization lemmas for the earliest-maximum scan. -/

theorem scanMax_cases (l : List ℚ) (acc : Nat × ℚ) (i : Nat) :
    scanMax acc i l = acc ∨
      ∃ j, j < l.length ∧ l[j]? = some (scanMax acc i l).2 ∧
        (scanMax acc i l).1 = i + j := by
  induction l generalizing acc i with
  | nil => left; rfl
  | cons u us ih =>
      have h2 : scanMax acc i (u :: us) =
          scanMax (if acc.2 < u then (i, u) else acc) (i + 1) us := rfl
      rw [h2]
      rcases ih (if acc.2 < u then (i, u) else acc) (i + 1) with h | ⟨j, hj, hget, hfst⟩
      · rw [h]
        by_cases hu : acc.2 < u
        · right
          refine ⟨0, by simp, ?_, ?_⟩
          · simp [hu]
          · simp [hu]
        · left
          simp [hu]
      · right
        refine ⟨j + 1, by simp only [List.length_cons]; omega, ?_, by omega⟩
        simpa using hget

theorem scanMax_acc_le (l : List ℚ) (acc : Nat × ℚ) (i : Nat) :
    acc.2 ≤ (scanMax acc i l).2 := by
  induction l generalizing acc i with
  | nil => exact le_refl _
  | cons u us ih =>
      have h2 : scanMax acc i (u :: us) =
          scanMax (if acc.2 < u then (i, u) else acc) (i + 1) us := rfl
      rw [h2]
      refine le_trans ?_ (ih (if acc.2 < u then (i, u) else acc) (i + 1))
      by_cases hu : acc.2 < u
      · simp [hu]
        exact le_of_lt hu
      · simp [hu]

theorem scanMax_acc_or_lt (l : List ℚ) (acc : Nat × ℚ) (i : Nat) :
    scanMax acc i l = acc ∨ acc.2 < (scanMax acc i l).2 := by
  induction l generalizing acc i with
  | nil => left; rfl
  | cons u us ih =>
      have h2 : scanMax acc i (u :: us) =
          scanMax (if acc.2 < u then (i, u) else acc) (i + 1) us := rfl
      rw [h2]
      by_cases hu : acc.2 < u
      · right
        refine lt_of_lt_of_le hu ?_
        refine le_trans ?_ (scanMax_acc_le us _ (i + 1))
        simp [hu]
      · simpa [hu] using ih (if acc.2 < u then (i, u) else acc) (i + 1)

theorem scanMax_head_le (l : List ℚ) (acc : Nat × ℚ) (i : Nat) (u : ℚ)
    (hu : u ≤ acc.2) : u ≤ (scanMax acc i l).2 :=
  le_trans hu (scanMax_acc_le l acc i)

theorem scanMax_dominates (l : List ℚ) (acc : Nat × ℚ) (i : Nat) :
    ∀ (j : Nat) (v : ℚ), l[j]? = some v → v ≤ (scanMax acc i l).2 := by
  induction l generalizing acc i with
  | nil => intro j v h; simp at h
  | cons u us ih =>
      intro j v h
      have h2 : scanMax acc i (u :: us) =
          scanMax (if acc.2 < u then (i, u) else acc) (i + 1) us := rfl
      rw [h2]
      cases j with
      | zero =>
          have hv : u = v := by simpa using h
          rw [← hv]
          refine scanMax_head_le us _ (i + 1) u ?_
          by_cases hc : acc.2 < u
          · rw [if_pos hc]
          · rw [if_neg hc]
            exact le_of_not_lt hc
      | succ j =>
          rw [List.getElem?_cons_succ] at h
          exact ih _ (i + 1) j v h

theorem scanMax_before (l : List ℚ) (acc : Nat × ℚ) (i : Nat) (hacc : acc.1 < i) :
    ∀ (j : Nat) (v : ℚ), l[j]? = some v → i + j < (scanMax acc i l).1 → v < (scanMax acc i l).2 := by
  induction l generalizing acc i with
  | nil => intro j v h; simp at h
  | cons u us ih =>
      intro j v h hlt
      have h2 : scanMax acc i (u :: us) =
          scanMax (if acc.2 < u then (i, u) else acc) (i + 1) us := rfl
      rw [h2] at hlt ⊢
      cases j with
      | zero =>
          have hv : u = v := by simpa using h
          have hafst : (if acc.2 < u then (i, u) else acc).1 ≤ i := by
            by_cases hc : acc.2 < u
            · simp [hc]
            · simp [hc]
              omega
          have hne : scanMax (if acc.2 < u then (i, u) else acc) (i + 1) us ≠
              (if acc.2 < u then (i, u) else acc) := by
            intro he
            rw [he] at hlt
            omega
          rcases scanMax_acc_or_lt us (if acc.2 < u then (i, u) else acc) (i + 1) with
            he | hstrict
          · exact absurd he hne
          · refine lt_of_le_of_lt ?_ hstrict
            rw [← hv]
            by_cases hc : acc.2 < u
            · simp [hc]
            · simp only [hc, if_false]
              exact le_of_not_lt hc
      | succ j =>
          rw [List.getElem?_cons_succ] at h
          have hafst : (if acc.2 < u then (i, u) else acc).1 < i + 1 := by
            by_cases hc : acc.2 < u
            · simp [hc]
            · simp [hc]
              omega
          exact ih _ (i + 1) hafst j v h (by omega)

theorem farthestPoint_attained (ds : List ℚ) (h : ds ≠ []) :
    (farthestPoint ds).1 < ds.length ∧
      ds[(farthestPoint ds).1]? = some (farthestPoint ds).2 := by
  match ds, h with
  | v :: vs, _ =>
      have h0 : farthestPoint (v :: vs) = scanMax (0, v) 1 vs := rfl
      rw [h0]
      rcases scanMax_cases vs (0, v) 1 with hc | ⟨j, hj, hget, hfst⟩
      · rw [hc]
        exact ⟨by simp, by simp [hc]⟩
      · rw [hfst]
        constructor
        · simp only [List.length_cons]
          omega
        · have : 1 + j = j + 1 := by omega
          rw [this, List.getElem?_cons_succ]
          exact hget

theorem farthestPoint_dominates (ds : List ℚ) :
    ∀ (j : Nat) (v : ℚ), ds[j]? = some v → v ≤ (farthestPoint ds).2 := by
  match ds with
  | [] => intro j v h; simp at h
  | u :: us =>
      intro j v h
      have h0 : farthestPoint (u :: us) = scanMax (0, u) 1 us := rfl
      rw [h0]
      cases j with
      | zero =>
          have hv : u = v := by simpa using h
          refine scanMax_head_le us (0, u) 1 v ?_
          rw [← hv]
      | succ j =>
          rw [List.getElem?_cons_succ] at h
          exact scanMax_dominates us (0, u) 1 j v h

theorem farthestPoint_before (ds : List ℚ) :
    ∀ (j : Nat) (v : ℚ), ds[j]? = some v → j < (farthestPoint ds).1 → v < (farthestPoint ds).2 := by
  match ds with
  | [] => intro j v h; simp at h
  | u :: us =>
      intro j v h hlt
      have h0 : farthestPoint (u :: us) = scanMax (0, u) 1 us := rfl
      rw [h0] at hlt ⊢
      cases j with
      | zero =>
          have hv : u = v := by simpa using h
          have hne : scanMax (0, u) 1 us ≠ (0, u) := by
            intro he
            rw [he] at hlt
            omega
          rcases scanMax_acc_or_lt us (0, u) 1 with he | hstrict
          · exact absurd he hne
          · rw [← hv]
            exact hstrict
      | succ j =>
          rw [List.getElem?_cons_succ] at h
          exact scanMax_before us (0, u) 1 (by omega) j v h (by omega)

/-- Specification predicate of the global farthest-point selection: the
pair is attained in the list, dominates every entry, and every earlier
entry is strictly smaller, so it is the earliest maximum. -/
def IsFarthest (ds : List ℚ) (p : Nat × ℚ) : Prop :=
  ds[p.1]? = some p.2 ∧
    (∀ (j : Nat) (v : ℚ), ds[j]? = some v → v ≤ p.2) ∧
    (∀ (j : Nat) (v : ℚ), ds[j]? = some v → j < p.1 → v < p.2)

theorem isFarthest_unique (ds : List ℚ) (p q : Nat × ℚ)
    (hp : IsFarthest ds p) (hq : IsFarthest ds q) : p = q := by
  obtain ⟨hpa, hpd, hpb⟩ := hp
  obtain ⟨hqa, hqd, hqb⟩ := hq
  have hv : p.2 = q.2 := le_antisymm (hqd _ _ hpa) (hpd _ _ hqa)
  have hfst : p.1 = q.1 := by
    rcases lt_trichotomy p.1 q.1 with h | h | h
    · have := hqb _ _ hpa h
      rw [hv] at this
      exact absurd this (lt_irrefl _)
    · exact h
    · have := hpb _ _ hqa h
      rw [hv] at this
      exact absurd this (lt_irrefl _)
  exact Prod.ext hfst hv

theorem farthestPoint_isFarthest (ds : List ℚ) (h : ds ≠ []) :
    IsFarthest ds (farthestPoint ds) :=
  ⟨(farthestPoint_attained ds h).2, farthestPoint_dominates ds,
    fun j v hg hl => farthestPoint_before ds j v hg hl⟩

/-! Invariants of the K-Centers loop. -/

theorem trackerUpd_length (lbl : Nat) (nds : List ℚ) (t : List (Nat × ℚ)) :
    (trackerUpd lbl nds t).length = min nds.length t.length := by
  simp [trackerUpd]

theorem trackerUpd_getElem (lbl : Nat) (nds : List ℚ) (t : List (Nat × ℚ))
    (i : Nat) (nd : ℚ) (q : Nat × ℚ) (hn : nds[i]? = some nd) (ht : t[i]? = some q) :
    (trackerUpd lbl nds t)[i]? = some (if nd < q.2 then (lbl, nd) else q) := by
  simp [trackerUpd, List.getElem?_zipWith, hn, ht]

/-- Base invariant of the K-Centers loop: the tracker is co-indexed with
the data, the center list is nonempty with in-range indices, and every
item records exactly the earliest nearest center of the current center
list together with its distance to it. -/
structure KCBase [Inhabited α] (d : α → α → ℚ) (X : List α) (s : KCState) : Prop where
  lenEq : s.track.length = X.length
  ctrsNe : s.ctrs ≠ []
  ctrsLt : ∀ c ∈ s.ctrs, c < X.length
  near : ∀ (i : Nat) (x : α), X[i]? = some x →
    s.track[i]? = some (nearestCenter (s.ctrs.map (fun c => d (X.getD c default) x)))

theorem kcBase_step [Inhabited α] (d : α → α → ℚ) (X : List α) (s : KCState)
    (hs : KCBase d X s) (j : Nat) (hj : j < X.length) :
    KCBase d X
      { ctrs := s.ctrs ++ [j],
        track := trackerUpd s.ctrs.length
          (X.map (fun x => d (X.getD j default) x)) s.track } := by
  constructor
  · rw [trackerUpd_length, List.length_map, hs.lenEq]
    exact Nat.min_self _
  · simp
  · intro c hc
    rcases List.mem_append.mp hc with h | h
    · exact hs.ctrsLt c h
    · have : c = j := by simpa using h
      rw [this]
      exact hj
  · intro i x hx
    have hnd : (X.map (fun x => d (X.getD j default) x))[i]? =
        some (d (X.getD j default) x) := by
      rw [List.getElem?_map, hx]
      rfl
    have hold := hs.near i x hx
    rw [trackerUpd_getElem _ _ _ i _ _ hnd hold]
    have hmapne : s.ctrs.map (fun c => d (X.getD c default) x) ≠ [] := by
      simpa using hs.ctrsNe
    rw [List.map_append, List.map_singleton,
      nearestCenter_append _ _ hmapne, List.length_map]

theorem kcLoop_base [Inhabited α] (d : α → α → ℚ) (X : List α) (cfg : KCfg)
    (fuel : Nat) (s : KCState) (hs : KCBase d X s) :
    KCBase d X (kcLoop d X cfg fuel s) := by
  induction fuel generalizing s with
  | zero => exact hs
  | succ fuel ih =>
      rw [kcLoop]
      split
      · exact hs
      · split
        · exact hs
        · split
          · exact hs
          · rename_i hex
            have hlen : 0 < X.length := by
              have := List.length_pos.mpr hs.ctrsNe
              omega
            have htne : s.track.map Prod.snd ≠ [] := by
              have htr : s.track ≠ [] := by
                intro he
                have h1 := hs.lenEq
                rw [he] at h1
                simp at h1
                omega
              simpa using htr
            have hfar := (farthestPoint_attained (s.track.map Prod.snd) htne).1
            rw [List.length_map, hs.lenEq] at hfar
            exact ih _ (kcBase_step d X s hs _ hfar)

theorem kcInit_base [Inhabited α] (d : α → α → ℚ) (X : List α) (cfg : KCfg)
    (hX : X ≠ []) : KCBase d X (kcInit d X cfg) := by
  have hpos : 0 < X.length := List.length_pos.mpr hX
  constructor
  · simp [kcInit]
  · simp [kcInit]
  · intro c hc
    simp only [kcInit, List.mem_singleton] at hc
    rw [hc]
    split
    · exact Nat.mod_lt _ hpos
    · exact hpos
  · intro i x hx
    simp only [kcInit, List.getElem?_map, hx, Option.map_some, List.map_cons,
      List.map_nil]
    rfl

theorem kcentersState_base [Inhabited α] (d : α → α → ℚ) (X : List α)
    (cfg : KCfg) (hX : X ≠ []) : KCBase d X (kcentersState d X cfg) :=
  kcLoop_base d X cfg X.length _ (kcInit_base d X cfg hX)

/-- Tracker consistency: every item records the label of an existing
center and exactly its metric distance to that center, the central
invariant of the Nearest-Center Tracker. -/
def Consistent [Inhabited α] (d : α → α → ℚ) (X : List α) (s : KCState) : Prop :=
  s.track.length = X.length ∧
    ∀ (i : Nat) (x : α), X[i]? = some x →
      ∃ (a : Nat) (dv : ℚ), s.track[i]? = some (a, dv) ∧
        ∃ c, s.ctrs[a]? = some c ∧ dv = d (X.getD c default) x

theorem kcBase_consistent [Inhabited α] (d : α → α → ℚ) (X : List α)
    (s : KCState) (hs : KCBase d X s) : Consistent d X s := by
  refine ⟨hs.lenEq, ?_⟩
  intro i x hx
  have hne : s.ctrs.map (fun c => d (X.getD c default) x) ≠ [] := by
    simpa using hs.ctrsNe
  obtain ⟨hlt, hat⟩ := nearestCenter_attained _ hne
  set nc := nearestCenter (s.ctrs.map (fun c => d (X.getD c default) x)) with hncdef
  refine ⟨nc.1, nc.2, by rw [hs.near i x hx], ?_⟩
  rw [List.getElem?_map] at hat
  obtain ⟨c, hc, hfc⟩ := Option.map_eq_some'.mp hat
  exact ⟨c, hc, hfc.symm⟩

theorem medoidSwapStep_consistent [Inhabited α] (d : α → α → ℚ) (X : List α)
    (p c : Nat) (s : KCState) (hs : Consistent d X s) :
    Consistent d X (medoidSwapStep d X p c s) := by
  obtain ⟨hlen, hpt⟩ := hs
  rw [medoidSwapStep]
  split
  · constructor
    · simp only [List.length_zipWith, List.length_map]
      omega
    · intro i x hx
      obtain ⟨a, dv, hti, c0, hc0, hdv⟩ := hpt i x hx
      have hnd : (X.map (fun x => d (X.getD p default) x))[i]? =
          some (d (X.getD p default) x) := by
        rw [List.getElem?_map, hx]
        rfl
      have hzip : (List.zipWith (fun nd q => if q.1 = c then (c, nd) else q)
          (X.map (fun x => d (X.getD p default) x)) s.track)[i]? =
          some (if a = c then (c, d (X.getD p default) x) else (a, dv)) := by
        rw [List.getElem?_zipWith, hnd, hti]
      by_cases hac : a = c
      · refine ⟨c, d (X.getD p default) x, ?_, p, ?_, rfl⟩
        · rw [hzip]
          simp [hac]
        · have hclt : c < s.ctrs.length := by
            rw [← hac]
            exact (List.getElem?_eq_some_iff.mp hc0).1
          rw [List.getElem?_set]
          simp [hclt]
      · refine ⟨a, dv, ?_, c0, ?_, hdv⟩
        · rw [hzip]
          simp [hac]
        · rw [List.getElem?_set]
          simp only [if_neg (Ne.symm hac)]
          exact hc0
  · exact ⟨hlen, hpt⟩

theorem foldSwaps_consistent [Inhabited α] (d : α → α → ℚ) (X : List α)
    (l : List (Nat × Nat)) (s : KCState) (hs : Consistent d X s) :
    Consistent d X
      (l.foldl (fun st cp => medoidSwapStep d X cp.2 cp.1 st) s) := by
  induction l generalizing s with
  | nil => exact hs
  | cons cp rest ih =>
      exact ih _ (medoidSwapStep_consistent d X cp.2 cp.1 s hs)

theorem kmedoidsPamUpdate_consistent [Inhabited α] (d : α → α → ℚ) (X : List α)
    (proposals : List Nat) (s : KCState) (hs : Consistent d X s) :
    Consistent d X (kmedoidsPamUpdate d X proposals s) :=
  foldSwaps_consistent d X _ s hs

/-! Strengthened invariant for the stopping-condition claims: under the
metric assumptions of the data model (non-negative, zero on identical
items) the admitted centers stay pairwise distinct, and the center at
position a keeps label a at distance zero. -/

structure KCStrong [Inhabited α] (d : α → α → ℚ) (X : List α) (s : KCState) : Prop where
  base : KCBase d X s
  nodup : s.ctrs.Nodup
  labeled : ∀ a : Nat, a < s.ctrs.length →
    ∃ c, s.ctrs[a]? = some c ∧ s.track[c]? = some (a, 0)

theorem kcStrong_center_zero [Inhabited α] {d : α → α → ℚ} {X : List α}
    {s : KCState} (hs : KCStrong d X s) {c : Nat} (hc : c ∈ s.ctrs) :
    ∃ a : Nat, s.track[c]? = some (a, 0) := by
  obtain ⟨a, ha⟩ := List.mem_iff_getElem?.mp hc
  obtain ⟨c2, hc2, ht⟩ := hs.labeled a ((List.getElem?_eq_some_iff.mp ha).1)
  rw [ha] at hc2
  cases hc2
  exact ⟨a, ht⟩

theorem kcStrong_init [Inhabited α] (d : α → α → ℚ) (X : List α) (cfg : KCfg)
    (hX : X ≠ []) (hd0 : ∀ x, d x x = 0) : KCStrong d X (kcInit d X cfg) := by
  refine ⟨kcInit_base d X cfg hX, by simp [kcInit], ?_⟩
  intro a ha
  simp only [kcInit, List.length_singleton] at ha
  have ha0 : a = 0 := by omega
  subst ha0
  have hpos : 0 < X.length := List.length_pos.mpr hX
  refine ⟨if cfg.randomFirstCenter then cfg.seed % X.length else 0, by simp [kcInit], ?_⟩
  have hjlt : (if cfg.randomFirstCenter then cfg.seed % X.length else 0) < X.length := by
    split
    · exact Nat.mod_lt _ hpos
    · exact hpos
  simp only [kcInit, List.getElem?_map]
  rw [List.getElem?_eq_getElem hjlt]
  simp only [Option.map_some', Option.some.injEq]
  rw [List.getD_eq_getElem?_getD, List.getElem?_eq_getElem hjlt]
  simp [hd0]

theorem kcStrong_step [Inhabited α] (d : α → α → ℚ) (X : List α) (s : KCState)
    (hd0 : ∀ x, d x x = 0) (hdn : ∀ x y, 0 ≤ d x y)
    (hs : KCStrong d X s)
    (hpos : 0 < (farthestPoint (s.track.map Prod.snd)).2)
    (hjlt : (farthestPoint (s.track.map Prod.snd)).1 < X.length) :
    KCStrong d X
      { ctrs := s.ctrs ++ [(farthestPoint (s.track.map Prod.snd)).1],
        track := trackerUpd s.ctrs.length
          (X.map (fun x => d (X.getD (farthestPoint (s.track.map Prod.snd)).1 default) x))
          s.track } := by
  have htne : s.track.map Prod.snd ≠ [] := by
    intro he
    rw [he] at hpos
    simp [farthestPoint] at hpos
  have hat := (farthestPoint_attained (s.track.map Prod.snd) htne).2
  rw [List.getElem?_map] at hat
  obtain ⟨q, hq, hqsnd⟩ := Option.map_eq_some'.mp hat
  have hjnot : (farthestPoint (s.track.map Prod.snd)).1 ∉ s.ctrs := by
    intro hmem
    obtain ⟨a, hz⟩ := kcStrong_center_zero hs hmem
    rw [hq] at hz
    have hqa : q = (a, 0) := (Option.some.injEq _ _).mp hz
    have hq0 : q.2 = 0 := by rw [hqa]
    rw [← hqsnd, hq0] at hpos
    exact absurd hpos (lt_irrefl 0)
  refine ⟨kcBase_step d X s hs.base _ hjlt, ?_, ?_⟩
  · rw [List.nodup_append]
    exact ⟨hs.nodup, by simp, by simp [hjnot]⟩
  · intro a ha
    simp only [List.length_append, List.length_singleton] at ha
    by_cases hao : a < s.ctrs.length
    · obtain ⟨c, hc, ht⟩ := hs.labeled a hao
      have hclt : c < X.length := hs.base.ctrsLt c (List.getElem?_mem hc)
      have hnd : (X.map
          (fun x => d (X.getD (farthestPoint (s.track.map Prod.snd)).1 default) x))[c]? =
          some (d (X.getD (farthestPoint (s.track.map Prod.snd)).1 default) X[c]) := by
        rw [List.getElem?_map, List.getElem?_eq_getElem hclt, Option.map_some']
      refine ⟨c, by rw [List.getElem?_append_left hao]; exact hc, ?_⟩
      rw [trackerUpd_getElem _ _ _ c _ _ hnd ht]
      rw [if_neg (by simpa using not_lt_of_le (hdn _ _))]
    · have ha2 : a = s.ctrs.length := by omega
      subst ha2
      refine ⟨(farthestPoint (s.track.map Prod.snd)).1,
        by rw [List.getElem?_concat_length], ?_⟩
      have hnd : (X.map
          (fun x => d (X.getD (farthestPoint (s.track.map Prod.snd)).1 default) x))[
            (farthestPoint (s.track.map Prod.snd)).1]? =
          some (d (X.getD (farthestPoint (s.track.map Prod.snd)).1 default)
            X[(farthestPoint (s.track.map Prod.snd)).1]) := by
        rw [List.getElem?_map, List.getElem?_eq_getElem hjlt, Option.map_some']
      rw [trackerUpd_getElem _ _ _ _ _ _ hnd hq]
      have hd0j : d (X.getD (farthestPoint (s.track.map Prod.snd)).1 default)
          X[(farthestPoint (s.track.map Prod.snd)).1] = 0 := by
        rw [List.getD_eq_getElem?_getD, List.getElem?_eq_getElem hjlt]
        exact hd0 _
      rw [hd0j, if_pos (by rw [hqsnd]; exact hpos)]

theorem kcFar_lt [Inhabited α] {d : α → α → ℚ} {X : List α} {s : KCState}
    (hb : KCBase d X s) (hlt : s.ctrs.length < X.length) :
    (farthestPoint (s.track.map Prod.snd)).1 < X.length := by
  have htne : s.track.map Prod.snd ≠ [] := by
    intro he
    have htr : s.track = [] := by simpa using he
    have hlen := hb.lenEq
    rw [htr] at hlen
    simp at hlen
    omega
  have hres := (farthestPoint_attained _ htne).1
  rw [List.length_map, hb.lenEq] at hres
  exact hres

theorem kcStrong_pos [Inhabited α] (d : α → α → ℚ) (X : List α) (s : KCState)
    (hdn : ∀ x y, 0 ≤ d x y) (hiff : ∀ x y, d x y = 0 ↔ x = y) (hnd : X.Nodup)
    (hs : KCStrong d X s) (hlt : s.ctrs.length < X.length) :
    0 < (farthestPoint (s.track.map Prod.snd)).2 := by
  by_contra hneg
  push_neg at hneg
  have hall : ∀ i, i < X.length → i ∈ s.ctrs := by
    intro i hi
    have hx : X[i]? = some X[i] := List.getElem?_eq_getElem hi
    have hnear := hs.base.near i X[i] hx
    have hdvi : (s.track.map Prod.snd)[i]? =
        some (nearestCenter (s.ctrs.map (fun c => d (X.getD c default) X[i]))).2 := by
      rw [List.getElem?_map, hnear, Option.map_some']
    have hle := farthestPoint_dominates _ i _ hdvi
    have hne : s.ctrs.map (fun c => d (X.getD c default) X[i]) ≠ [] := by
      simpa using hs.base.ctrsNe
    have hat := (nearestCenter_attained _ hne).2
    rw [List.getElem?_map] at hat
    obtain ⟨c, hcg, hcv⟩ := Option.map_eq_some'.mp hat
    have hge : 0 ≤ (nearestCenter (s.ctrs.map (fun c => d (X.getD c default) X[i]))).2 := by
      rw [← hcv]
      exact hdn _ _
    have hv0 : (nearestCenter (s.ctrs.map (fun c => d (X.getD c default) X[i]))).2 = 0 :=
      le_antisymm (le_trans hle hneg) hge
    have hxeq : X.getD c default = X[i] := (hiff _ _).mp (by rw [hcv, hv0])
    have hclt : c < X.length := hs.base.ctrsLt c (List.getElem?_mem hcg)
    have hgc : X[c]? = X[i]? := by
      rw [List.getElem?_eq_getElem hclt, List.getElem?_eq_getElem hi]
      rw [List.getD_eq_getElem?_getD, List.getElem?_eq_getElem hclt] at hxeq
      rw [← hxeq]
      rfl
    have hci : c = i := List.getElem?_inj hclt hnd hgc
    rw [← hci]
    exact List.getElem?_mem hcg
  have hsub : Finset.range X.length ⊆ s.ctrs.toFinset := by
    intro i hi
    exact List.mem_toFinset.mpr (hall i (Finset.mem_range.mp hi))
  have hcard := Finset.card_le_card hsub
  rw [List.toFinset_card_of_nodup hs.nodup, Finset.card_range] at hcard
  omega

theorem allMem_of_nodup_lt (l : List Nat) (n : Nat) (hnd : l.Nodup)
    (hlt : ∀ c ∈ l, c < n) (hlen : n ≤ l.length) : ∀ i, i < n → i ∈ l := by
  have hsub : l.toFinset ⊆ Finset.range n := by
    intro c hc
    exact Finset.mem_range.mpr (hlt c (List.mem_toFinset.mp hc))
  have heq : l.toFinset = Finset.range n := by
    refine Finset.eq_of_subset_of_card_le hsub ?_
    rw [List.toFinset_card_of_nodup hnd, Finset.card_range]
    exact hlen
  intro i hi
  have hmem : i ∈ l.toFinset := by
    rw [heq]
    exact Finset.mem_range.mpr hi
  exact List.mem_toFinset.mp hmem

theorem radiusStop_true (cfg : KCfg) (m : ℚ) (h : radiusStop cfg m = true) :
    ∃ r, cfg.distCutoff = some r ∧ m ≤ r := by
  unfold radiusStop at h
  rcases hc : cfg.distCutoff with _ | r
  · rw [hc] at h
    simp at h
  · rw [hc] at h
    simp at h
    exact ⟨r, rfl, h⟩

theorem radiusStop_false_lt (cfg : KCfg) (m rad : ℚ) (hc : cfg.distCutoff = some rad)
    (h : ¬ radiusStop cfg m = true) : rad < m := by
  unfold radiusStop at h
  rw [hc] at h
  simp at h
  exact h

theorem countStop_true (cfg : KCfg) (n : Nat) (h : countStop cfg n = true) :
    ∃ k, cfg.nClusters = some k ∧ n = k := by
  unfold countStop at h
  rcases hc : cfg.nClusters with _ | k
  · rw [hc] at h
    simp at h
  · rw [hc] at h
    simp at h
    exact ⟨k, rfl, h.symm⟩

theorem track_le_far (t : List (Nat × ℚ)) :
    ∀ dv ∈ t.map Prod.snd, dv ≤ (farthestPoint (t.map Prod.snd)).2 := by
  intro dv hdv
  obtain ⟨j, hj⟩ := List.mem_iff_getElem?.mp hdv
  exact farthestPoint_dominates _ j dv hj

theorem kcStrong_labelSet [Inhabited α] (d : α → α → ℚ) (X : List α) (s : KCState)
    (hs : KCStrong d X s) :
    ∀ a : Nat, a ∈ s.track.map Prod.fst ↔ a < s.ctrs.length := by
  intro a
  constructor
  · intro hmem
    rw [List.mem_map] at hmem
    obtain ⟨q, hq, hfst⟩ := hmem
    obtain ⟨i, hi⟩ := List.mem_iff_getElem?.mp hq
    have hilt : i < s.track.length := (List.getElem?_eq_some_iff.mp hi).1
    rw [hs.base.lenEq] at hilt
    have hx : X[i]? = some X[i] := List.getElem?_eq_getElem hilt
    have hnear := hs.base.near i X[i] hx
    rw [hi] at hnear
    have hqe : q = nearestCenter (s.ctrs.map (fun c => d (X.getD c default) X[i])) :=
      (Option.some.injEq _ _).mp hnear
    have hne : s.ctrs.map (fun c => d (X.getD c default) X[i]) ≠ [] := by
      simpa using hs.base.ctrsNe
    have hlt := (nearestCenter_attained _ hne).1
    rw [List.length_map] at hlt
    rw [← hfst, hqe]
    exact hlt
  · intro ha
    obtain ⟨c, hc, ht⟩ := hs.labeled a ha
    rw [List.mem_map]
    exact ⟨(a, 0), List.getElem?_mem ht, rfl⟩

theorem kcLoop_count [Inhabited α] (d : α → α → ℚ) (X : List α) (cfg : KCfg)
    (k : Nat) (hk : cfg.nClusters = some k) (hkN : k ≤ X.length)
    (hdn : ∀ x y, 0 ≤ d x y) (hiff : ∀ x y, d x y = 0 ↔ x = y) (hnd : X.Nodup)
    (fuel : Nat) (s : KCState) (hs : KCStrong d X s)
    (hsk : s.ctrs.length ≤ k) (hfuel : k ≤ fuel + s.ctrs.length) :
    KCStrong d X (kcLoop d X cfg fuel s) ∧
      ((kcLoop d X cfg fuel s).ctrs.length = k ∨
        ∃ rad, cfg.distCutoff = some rad ∧
          ∀ dv ∈ (kcLoop d X cfg fuel s).track.map Prod.snd, dv ≤ rad) := by
  induction fuel generalizing s with
  | zero =>
      have h0 : kcLoop d X cfg 0 s = s := rfl
      rw [h0]
      exact ⟨hs, Or.inl (by omega)⟩
  | succ fuel ih =>
      rw [kcLoop]
      split
      · rename_i hrad
        obtain ⟨rad, hr, hler⟩ := radiusStop_true cfg _ hrad
        exact ⟨hs, Or.inr ⟨rad, hr,
          fun dv hdv => le_trans (track_le_far s.track dv hdv) hler⟩⟩
      · rename_i hnrad
        split
        · rename_i hcnt
          have hlenk : k = s.ctrs.length := by
            unfold countStop at hcnt
            rw [hk] at hcnt
            simpa using hcnt
          exact ⟨hs, Or.inl hlenk.symm⟩
        · rename_i hncnt
          split
          · rename_i hex
            have hlenk : s.ctrs.length = k := by omega
            exact ⟨hs, Or.inl hlenk⟩
          · rename_i hex
            have hlt : s.ctrs.length < X.length := by omega
            have hd0 : ∀ x, d x x = 0 := fun x => (hiff x x).mpr rfl
            have hne : s.ctrs.length ≠ k := by
              intro he
              apply hncnt
              unfold countStop
              rw [hk]
              simp [he]
            have hpos := kcStrong_pos d X s hdn hiff hnd hs hlt
            have hs2 := kcStrong_step d X s hd0 hdn hs hpos (kcFar_lt hs.base hlt)
            refine ih _ hs2 ?_ ?_
            · simp only [List.length_append, List.length_singleton]
              omega
            · simp only [List.length_append, List.length_singleton]
              omega

theorem kcLoop_radius [Inhabited α] (d : α → α → ℚ) (X : List α) (cfg : KCfg)
    (rad : ℚ) (hr : cfg.distCutoff = some rad) (h0r : 0 ≤ rad)
    (hd0 : ∀ x, d x x = 0) (hdn : ∀ x y, 0 ≤ d x y)
    (fuel : Nat) (s : KCState) (hs : KCStrong d X s)
    (hfuel : X.length ≤ fuel + s.ctrs.length) :
    (∀ dv ∈ (kcLoop d X cfg fuel s).track.map Prod.snd, dv ≤ rad) ∨
      (∀ i, i < X.length → i ∈ (kcLoop d X cfg fuel s).ctrs) ∨
      (∃ k, cfg.nClusters = some k ∧ (kcLoop d X cfg fuel s).ctrs.length = k) := by
  induction fuel generalizing s with
  | zero =>
      have h0 : kcLoop d X cfg 0 s = s := rfl
      rw [h0]
      right
      left
      exact allMem_of_nodup_lt s.ctrs X.length hs.nodup hs.base.ctrsLt (by omega)
  | succ fuel ih =>
      rw [kcLoop]
      split
      · rename_i hradT
        left
        obtain ⟨rad2, hr2, hler⟩ := radiusStop_true cfg _ hradT
        rw [hr] at hr2
        have hre : rad = rad2 := by
          simpa using hr2
        rw [hre]
        exact fun dv hdv => le_trans (track_le_far s.track dv hdv) hler
      · rename_i hnrad
        split
        · rename_i hcnt
          right
          right
          exact countStop_true cfg _ hcnt
        · rename_i hncnt
          split
          · rename_i hex
            right
            left
            exact allMem_of_nodup_lt s.ctrs X.length hs.nodup hs.base.ctrsLt (by omega)
          · rename_i hex
            have hlt : s.ctrs.length < X.length := by omega
            have hpos : 0 < (farthestPoint (s.track.map Prod.snd)).2 :=
              lt_of_le_of_lt h0r (radiusStop_false_lt cfg _ rad hr hnrad)
            have hs2 := kcStrong_step d X s hd0 hdn hs hpos (kcFar_lt hs.base hlt)
            refine ih _ hs2 ?_
            simp only [List.length_append, List.length_singleton]
            omega

/-! Claim theorems: tracker consistency, determinism, configuration
errors, prediction. -/

theorem kcenters_ok_eq [Inhabited α] (d : α → α → ℚ) (X : List α) (cfg : KCfg)
    (r : ClusterResult α) (hok : kcenters d X cfg = Except.ok r) :
    r = resultOfState X (kcentersState d X cfg) := by
  rw [kcenters] at hok
  split at hok
  · exact absurd hok (by simp)
  · simpa using hok.symm

/-- Claim C1: after every K-Centers center admission, as visible in the
returned result of the kcenters entry point, and after every K-Medoids
update step, every item i records exactly the metric distance from item i
to the center CenterSet[AssignmentVector[i]]; tracker consistency holds
for the returned distances and assignments of kcenters and is preserved
by the PAM update round. -/
theorem C1_tracker_consistency [Inhabited α] (d : α → α → ℚ) (X : List α) :
    (∀ (cfg : KCfg) (r : ClusterResult α), X ≠ [] →
      kcenters d X cfg = Except.ok r →
      ∀ (i : Nat) (x : α), X[i]? = some x →
        ∃ (a c : Nat), r.assignments[i]? = some a ∧
          r.centerIndices[a]? = some c ∧
          r.distances[i]? = some (d (X.getD c default) x)) ∧
    (∀ (proposals : List Nat) (s : KCState), Consistent d X s →
      Consistent d X (kmedoidsPamUpdate d X proposals s)) := by
  constructor
  · intro cfg r hX hok i x hx
    have hr := kcenters_ok_eq d X cfg r hok
    obtain ⟨hlen, hpt⟩ := kcBase_consistent d X _ (kcentersState_base d X cfg hX)
    obtain ⟨a, dv, hti, c, hc, hdv⟩ := hpt i x hx
    refine ⟨a, c, ?_, ?_, ?_⟩
    · rw [hr]
      simp [resultOfState, List.getElem?_map, hti]
    · rw [hr]
      simpa [resultOfState] using hc
    · rw [hr]
      simp [resultOfState, List.getElem?_map, hti, hdv]
  · intro proposals s hs
    exact kmedoidsPamUpdate_consistent d X proposals s hs

/-- Witness for claim C1 at the discrete metric, the sample collection
and a two-cluster configuration; the PAM-update part is applied to the
K-Centers output state. -/
theorem C1_tracker_consistency_witness :
    sampleData ≠ [] ∧ sampleData[2]? = some 10 ∧
    (∃ (a c : Nat),
      (resultOfState sampleData
        (kcentersState discMetric sampleData ⟨none, some 2, false, 0⟩)).assignments[2]? =
          some a ∧
      (resultOfState sampleData
        (kcentersState discMetric sampleData ⟨none, some 2, false, 0⟩)).centerIndices[a]? =
          some c ∧
      (resultOfState sampleData
        (kcentersState discMetric sampleData ⟨none, some 2, false, 0⟩)).distances[2]? =
          some (discMetric (sampleData.getD c default) 10)) ∧
    Consistent discMetric sampleData
      (kmedoidsPamUpdate discMetric sampleData [1, 0]
        (kcentersState discMetric sampleData ⟨none, some 2, false, 0⟩)) := by
  refine ⟨by decide, by decide, ?_, ?_⟩
  · exact (C1_tracker_consistency discMetric sampleData).1 ⟨none, some 2, false, 0⟩ _
      (by decide) rfl 2 10 (by decide)
  · exact (C1_tracker_consistency discMetric sampleData).2 [1, 0] _
      (kcBase_consistent _ _ _
        (kcentersState_base discMetric sampleData ⟨none, some 2, false, 0⟩ (by decide)))

/-- Claim C4: two independent K-Centers runs with identical data, metric
and configuration (stopping conditions, initial-center mode and seed of
the explicit generator) produce identical results, hence identical
CenterSet, AssignmentVector and DistanceVector; in this model every
source of randomness is threaded through the explicit seed, so a run is a
pure function of its inputs. -/
theorem C4_determinism [Inhabited α] (d : α → α → ℚ) (X : List α) (cfg : KCfg)
    (r1 r2 : Except EnspError (ClusterResult α))
    (h1 : kcenters d X cfg = r1) (h2 : kcenters d X cfg = r2) :
    r1 = r2 ∧
    ∀ (a b : ClusterResult α), r1 = Except.ok a → r2 = Except.ok b →
      a.centerIndices = b.centerIndices ∧ a.assignments = b.assignments ∧
        a.distances = b.distances := by
  subst h1
  subst h2
  refine ⟨rfl, ?_⟩
  intro a b ha hb
  rw [ha] at hb
  cases hb
  exact ⟨rfl, rfl, rfl⟩

/-- Witness for claim C4 at the discrete metric and sample collection. -/
theorem C4_determinism_witness :
    kcenters discMetric sampleData ⟨some 1, none, false, 0⟩ =
      kcenters discMetric sampleData ⟨some 1, none, false, 0⟩ :=
  (C4_determinism discMetric sampleData ⟨some 1, none, false, 0⟩ _ _ rfl rfl).1

/-- Claim C8: constructing or invoking any clustering entry point, the
K-Centers object, the K-Hybrid object or the rmsd_cluster command line,
with neither a cluster-radius target nor a cluster-count target supplied
fails immediately with the configuration error, before any clustering
state is built or mutated. -/
theorem C8_config_error [Inhabited α] (d : α → α → ℚ) (X : List α) (cfg : KCfg)
    (updates : Nat) (a : AppArgs)
    (hc1 : cfg.distCutoff = none) (hc2 : cfg.nClusters = none)
    (ha1 : a.rmsdCutoff = none) (ha2 : a.nClusters = none) :
    kcenters d X cfg = Except.error EnspError.improperlyConfigured ∧
    khybrid d X cfg updates = Except.error EnspError.improperlyConfigured ∧
    processCommandLine a = Except.error EnspError.improperlyConfigured := by
  refine ⟨?_, ?_, ?_⟩
  · rw [kcenters, if_pos ⟨hc1, hc2⟩]
  · rw [khybrid, if_pos ⟨hc1, hc2⟩]
  · rw [processCommandLine, if_pos ⟨ha1, ha2⟩]

/-- Witness for claim C8 at a concrete unconfigured run. -/
theorem C8_config_error_witness :
    (⟨none, none, false, 0⟩ : KCfg).distCutoff = none ∧
    kcenters discMetric sampleData ⟨none, none, false, 0⟩ =
      Except.error EnspError.improperlyConfigured ∧
    khybrid discMetric sampleData ⟨none, none, false, 0⟩ 3 =
      Except.error EnspError.improperlyConfigured ∧
    processCommandLine ⟨none, none, [], [], [], none, false⟩ =
      Except.error EnspError.improperlyConfigured := by
  have h := C8_config_error discMetric sampleData ⟨none, none, false, 0⟩ 3
    ⟨none, none, [], [], [], none, false⟩ rfl rfl rfl rfl
  exact ⟨rfl, h.1, h.2.1, h.2.2⟩

/-- Claim C9: the predict entry point computes for every item of a new
collection the label of and distance to its nearest center against the
fixed supplied center set, returns the supplied center set itself
unmodified, and applied to data identical to the training data with the
trained centers reproduces the training assignments (and distances)
exactly. -/
theorem C9_predict [Inhabited α] (d : α → α → ℚ) (X : List α) :
    (∀ ctrs : List α, (predict d ctrs X).centers = ctrs) ∧
    (∀ (ctrs : List α) (i : Nat) (x : α), X[i]? = some x →
      (predict d ctrs X).assignments[i]? =
          some (nearestCenter (ctrs.map (fun c => d c x))).1 ∧
        (predict d ctrs X).distances[i]? =
          some (nearestCenter (ctrs.map (fun c => d c x))).2) ∧
    (∀ (cfg : KCfg) (r : ClusterResult α), X ≠ [] →
      kcenters d X cfg = Except.ok r →
      (predict d r.centers X).assignments = r.assignments ∧
      (predict d r.centers X).distances = r.distances) := by
  refine ⟨fun ctrs => rfl, ?_, ?_⟩
  · intro ctrs i x hx
    constructor
    · simp [predict, List.getElem?_map, hx]
    · simp [predict, List.getElem?_map, hx]
  · intro cfg r hX hok
    have hr := kcenters_ok_eq d X cfg r hok
    subst hr
    have hb := kcentersState_base d X cfg hX
    have hmaps : ∀ x : α,
        ((kcentersState d X cfg).ctrs.map (fun c => X.getD c default)).map
            (fun c => d c x) =
          (kcentersState d X cfg).ctrs.map (fun c => d (X.getD c default) x) := by
      intro x
      rw [List.map_map]
      rfl
    constructor
    · apply List.ext_getElem?
      intro i
      simp only [predict, resultOfState, List.getElem?_map]
      rcases hx : X[i]? with _ | x
      · have hnone : (kcentersState d X cfg).track[i]? = none := by
          rw [List.getElem?_eq_none_iff] at hx ⊢
          rw [hb.lenEq]
          exact hx
        rw [hnone]
        rfl
      · rw [hb.near i x hx]
        simp only [Option.map_some']
        rw [hmaps x]
    · apply List.ext_getElem?
      intro i
      simp only [predict, resultOfState, List.getElem?_map]
      rcases hx : X[i]? with _ | x
      · have hnone : (kcentersState d X cfg).track[i]? = none := by
          rw [List.getElem?_eq_none_iff] at hx ⊢
          rw [hb.lenEq]
          exact hx
        rw [hnone]
        rfl
      · rw [hb.near i x hx]
        simp only [Option.map_some']
        rw [hmaps x]

/-- Witness for claim C9 at the discrete metric and sample collection. -/
theorem C9_predict_witness :
    sampleData ≠ [] ∧
    (predict discMetric
      (resultOfState sampleData
        (kcentersState discMetric sampleData ⟨none, some 2, false, 0⟩)).centers
      sampleData).assignments =
      (resultOfState sampleData
        (kcentersState discMetric sampleData ⟨none, some 2, false, 0⟩)).assignments := by
  refine ⟨by decide, ?_⟩
  exact ((C9_predict discMetric sampleData).2.2 ⟨none, some 2, false, 0⟩ _
    (by decide) rfl).1

/-! Properties of the concrete witness fixtures. -/

theorem discMetric_nonneg : ∀ x y : ℚ, 0 ≤ discMetric x y := by
  intro x y
  unfold discMetric
  split
  · exact le_refl 0
  · norm_num

theorem discMetric_zero_iff : ∀ x y : ℚ, discMetric x y = 0 ↔ x = y := by
  intro x y
  unfold discMetric
  split
  · rename_i h
    simp [h]
  · rename_i h
    simp [h]

theorem discMetric_self : ∀ x : ℚ, discMetric x x = 0 :=
  fun x => (discMetric_zero_iff x x).mpr rfl

/-- Counterexample to claim C2 as stated: a collection of two identical
items has at least two items, yet K-Centers with a cluster count of two
returns two centers whose assignment label set is the proper subset
consisting of zero alone, because the second admitted center never wins a
strictly-smaller distance comparison; the label one is never assigned. -/
theorem C2_counterexample :
    dupData.length = 2 ∧
    kcenters discMetric dupData ⟨none, some 2, false, 0⟩ =
      Except.ok (resultOfState dupData
        (kcentersState discMetric dupData ⟨none, some 2, false, 0⟩)) ∧
    (resultOfState dupData
      (kcentersState discMetric dupData ⟨none, some 2, false, 0⟩)).centerIndices.length
        = 2 ∧
    ¬ (1 ∈ (resultOfState dupData
      (kcentersState discMetric dupData ⟨none, some 2, false, 0⟩)).assignments) :=
  ⟨by decide, rfl, by decide, by decide⟩

/-- Claim C2 (amended): for a collection of pairwise-distinct items under
a metric that is non-negative and zero exactly on identical items, a
K-Centers run with cluster count k, for 0 < k at most the item count,
terminates with exactly k centers and an assignment label set of exactly
the labels below k whenever no cluster radius is configured; when a
radius is also configured, either the same holds (the radius was not yet
reached) or the run stopped with every distance within the radius.  The
original claim fails without the distinctness assumption, see the
counterexample. -/
theorem C2_kcenters_exact_k [Inhabited α] (d : α → α → ℚ) (X : List α)
    (cfg : KCfg) (k : Nat) (r : ClusterResult α)
    (hdn : ∀ x y, 0 ≤ d x y) (hiff : ∀ x y, d x y = 0 ↔ x = y) (hnd : X.Nodup)
    (hk : cfg.nClusters = some k) (h0k : 0 < k) (hkN : k ≤ X.length)
    (hok : kcenters d X cfg = Except.ok r) :
    (cfg.distCutoff = none →
      r.centerIndices.length = k ∧ ∀ a : Nat, a ∈ r.assignments ↔ a < k) ∧
    ((r.centerIndices.length = k ∧ ∀ a : Nat, a ∈ r.assignments ↔ a < k) ∨
      ∃ rad, cfg.distCutoff = some rad ∧ ∀ dv ∈ r.distances, dv ≤ rad) := by
  have hre := kcenters_ok_eq d X cfg r hok
  subst hre
  have hX : X ≠ [] := by
    intro he
    rw [he] at hkN
    simp at hkN
    omega
  have hd0 : ∀ x, d x x = 0 := fun x => (hiff x x).mpr rfl
  have hstr0 := kcStrong_init d X cfg hX hd0
  have hilen : (kcInit d X cfg).ctrs.length = 1 := by simp [kcInit]
  obtain ⟨hstr, hdisj⟩ := kcLoop_count d X cfg k hk hkN hdn hiff hnd X.length _
    hstr0 (by omega) (by omega)
  have hmain : ((kcentersState d X cfg).ctrs.length = k ∧
      ∀ a : Nat, a ∈ (kcentersState d X cfg).track.map Prod.fst ↔ a < k) ∨
      ∃ rad, cfg.distCutoff = some rad ∧
        ∀ dv ∈ (kcentersState d X cfg).track.map Prod.snd, dv ≤ rad := by
    rcases hdisj with hlen | hrad
    · left
      refine ⟨hlen, ?_⟩
      intro a
      rw [← hlen]
      exact kcStrong_labelSet d X _ hstr a
    · right
      exact hrad
  constructor
  · intro hnone
    rcases hmain with h | ⟨rad, hrad, _⟩
    · exact h
    · rw [hnone] at hrad
      exact absurd hrad (by simp)
  · exact hmain

/-- Witness for the amended claim C2 at the discrete metric and the
pairwise-distinct sample collection with cluster count two. -/
theorem C2_kcenters_exact_k_witness :
    sampleData.Nodup ∧ 0 < 2 ∧ 2 ≤ sampleData.length ∧
    ((⟨none, some 2, false, 0⟩ : KCfg).distCutoff = none →
      (resultOfState sampleData
        (kcentersState discMetric sampleData ⟨none, some 2, false, 0⟩)).centerIndices.length
          = 2 ∧
      ∀ a : Nat, a ∈ (resultOfState sampleData
        (kcentersState discMetric sampleData ⟨none, some 2, false, 0⟩)).assignments ↔
          a < 2) := by
  refine ⟨by decide, by decide, by decide, ?_⟩
  exact (C2_kcenters_exact_k discMetric sampleData ⟨none, some 2, false, 0⟩ 2 _
    discMetric_nonneg discMetric_zero_iff (by decide) rfl (by decide) (by decide) rfl).1

/-- Claim C3: a K-Centers run with a configured cluster radius terminates
with every recorded distance at most the radius, unless every item has
been admitted as a center, or a configured cluster-count cap was reached
first.  The metric is non-negative and zero on identical items per the
data model, and the radius, being a distance threshold, is
non-negative. -/
theorem C3_kcenters_radius [Inhabited α] (d : α → α → ℚ) (X : List α)
    (cfg : KCfg) (rad : ℚ) (res : ClusterResult α)
    (hd0 : ∀ x, d x x = 0) (hdn : ∀ x y, 0 ≤ d x y)
    (hr : cfg.distCutoff = some rad) (h0r : 0 ≤ rad)
    (hok : kcenters d X cfg = Except.ok res) :
    (∀ dv ∈ res.distances, dv ≤ rad) ∨
      (∀ i, i < X.length → i ∈ res.centerIndices) ∨
      (∃ k, cfg.nClusters = some k ∧ res.centerIndices.length = k) := by
  have hre := kcenters_ok_eq d X cfg res hok
  subst hre
  by_cases hX : X = []
  · subst hX
    left
    intro dv hdv
    simp [resultOfState, kcentersState, kcLoop, kcInit] at hdv
  · have hstr0 := kcStrong_init d X cfg hX hd0
    have hilen : (kcInit d X cfg).ctrs.length = 1 := by simp [kcInit]
    have hres := kcLoop_radius d X cfg rad hr h0r hd0 hdn X.length _ hstr0 (by omega)
    exact hres

/-- Witness for claim C3 at the discrete metric, the sample collection
and radius one. -/
theorem C3_kcenters_radius_witness :
    (0 : ℚ) ≤ 1 ∧
    ((∀ dv ∈ (resultOfState sampleData
        (kcentersState discMetric sampleData ⟨some 1, none, false, 0⟩)).distances,
        dv ≤ 1) ∨
      (∀ i, i < sampleData.length →
        i ∈ (resultOfState sampleData
          (kcentersState discMetric sampleData ⟨some 1, none, false, 0⟩)).centerIndices) ∨
      (∃ k, (⟨some 1, none, false, 0⟩ : KCfg).nClusters = some k ∧
        (resultOfState sampleData
          (kcentersState discMetric sampleData ⟨some 1, none, false, 0⟩)).centerIndices.length
            = k)) := by
  refine ⟨by decide, ?_⟩
  exact C3_kcenters_radius discMetric sampleData ⟨some 1, none, false, 0⟩ 1 _
    discMetric_self discMetric_nonneg rfl (by decide) rfl

/-! Monotonicity machinery for the K-Medoids swap acceptance. -/

theorem clusterMaxDist_other (c cp : Nat) (hne : cp ≠ c) (nds : List ℚ)
    (t : List (Nat × ℚ)) (hlen : t.length ≤ nds.length) :
    (List.zipWith (fun nd q => if q.1 = c then (c, nd) else q) nds t).filter
        (fun q => q.1 == cp) = t.filter (fun q => q.1 == cp) := by
  induction t generalizing nds with
  | nil => simp
  | cons q ts ih =>
      match nds with
      | [] => simp at hlen
      | nd :: nds2 =>
          have hlen2 : ts.length ≤ nds2.length := by
            simp only [List.length_cons] at hlen
            omega
          rw [List.zipWith_cons_cons]
          by_cases hq : q.1 = c
          · have hhead : ((if q.1 = c then (c, nd) else q) : Nat × ℚ) = (c, nd) :=
              if_pos hq
            rw [hhead]
            have h1 : (((c, nd) : Nat × ℚ).1 == cp) = false := by
              simp only [beq_eq_false_iff_ne]
              exact fun h => hne h.symm
            have h2 : (q.1 == cp) = false := by
              simp only [beq_eq_false_iff_ne]
              rw [hq]
              exact fun h => hne h.symm
            rw [List.filter_cons_of_neg (by simp [h1]),
              List.filter_cons_of_neg (by simp [h2])]
            exact ih nds2 hlen2
          · have hhead : ((if q.1 = c then (c, nd) else q) : Nat × ℚ) = q := if_neg hq
            rw [hhead]
            cases hqc : (q.1 == cp) with
            | false =>
                rw [List.filter_cons_of_neg (by simp [hqc]),
                  List.filter_cons_of_neg (by simp [hqc])]
                exact ih nds2 hlen2
            | true =>
                rw [List.filter_cons_of_pos (by simp [hqc]),
                  List.filter_cons_of_pos (by simp [hqc])]
                rw [ih nds2 hlen2]

theorem medoidSwapStep_track_length [Inhabited α] (d : α → α → ℚ) (X : List α)
    (p c : Nat) (s : KCState) (hlen : s.track.length = X.length) :
    (medoidSwapStep d X p c s).track.length = X.length := by
  rw [medoidSwapStep]
  split
  · simp [List.length_zipWith, hlen]
  · exact hlen

theorem medoidSwapStep_clusterMax_le [Inhabited α] (d : α → α → ℚ) (X : List α)
    (p c : Nat) (s : KCState) (hlen : s.track.length = X.length) (cp : Nat) :
    clusterMaxDist cp (medoidSwapStep d X p c s).track ≤
      clusterMaxDist cp s.track := by
  rw [medoidSwapStep]
  split
  · rename_i hacc
    by_cases hcp : cp = c
    · subst hcp
      exact hacc
    · unfold clusterMaxDist
      rw [clusterMaxDist_other c cp hcp _ _ (by simp [hlen])]
  · exact le_refl _

theorem foldSwaps_mono [Inhabited α] (d : α → α → ℚ) (X : List α) {β : Type}
    (l : List β) (lab : β → Nat) (prop : β → KCState → Nat) (s : KCState)
    (hlen : s.track.length = X.length) :
    (l.foldl (fun st b => medoidSwapStep d X (prop b st) (lab b) st) s).track.length
        = X.length ∧
    ∀ cp : Nat,
      clusterMaxDist cp
          (l.foldl (fun st b => medoidSwapStep d X (prop b st) (lab b) st) s).track ≤
        clusterMaxDist cp s.track := by
  induction l generalizing s with
  | nil => exact ⟨hlen, fun cp => le_refl _⟩
  | cons b bs ih =>
      simp only [List.foldl_cons]
      obtain ⟨hl2, hm2⟩ := ih (medoidSwapStep d X (prop b s) (lab b) s)
        (medoidSwapStep_track_length d X (prop b s) (lab b) s hlen)
      exact ⟨hl2, fun cp =>
        le_trans (hm2 cp) (medoidSwapStep_clusterMax_le d X (prop b s) (lab b) s hlen cp)⟩

theorem kmedoidsPamUpdate_mono [Inhabited α] (d : α → α → ℚ) (X : List α)
    (proposals : List Nat) (s : KCState) (hlen : s.track.length = X.length) :
    (kmedoidsPamUpdate d X proposals s).track.length = X.length ∧
    ∀ cp : Nat, clusterMaxDist cp (kmedoidsPamUpdate d X proposals s).track ≤
      clusterMaxDist cp s.track :=
  foldSwaps_mono d X ((List.range s.ctrs.length).zip proposals) Prod.fst
    (fun b _ => b.2) s hlen

theorem kmedoidsRound_mono [Inhabited α] (d : α → α → ℚ) (X : List α)
    (seed : Nat) (s : KCState) (hlen : s.track.length = X.length) :
    (kmedoidsRound d X seed s).track.length = X.length ∧
    ∀ cp : Nat, clusterMaxDist cp (kmedoidsRound d X seed s).track ≤
      clusterMaxDist cp s.track :=
  foldSwaps_mono d X (List.range s.ctrs.length) (fun c => c)
    (fun c st => proposeMember (seed + c) c st.track) s hlen

theorem kmedoidsRounds_mono [Inhabited α] (d : α → α → ℚ) (X : List α)
    (seed n : Nat) (s : KCState) (hlen : s.track.length = X.length) :
    (kmedoidsRounds d X seed n s).track.length = X.length ∧
    ∀ cp : Nat, clusterMaxDist cp (kmedoidsRounds d X seed n s).track ≤
      clusterMaxDist cp s.track := by
  induction n generalizing s seed with
  | zero => exact ⟨hlen, fun cp => le_refl _⟩
  | succ n ih =>
      have hstep := kmedoidsRound_mono d X seed s hlen
      have hrest := ih (seed + 1) (kmedoidsRound d X seed s) hstep.1
      exact ⟨hrest.1, fun cp => le_trans (hrest.2 cp) (hstep.2 cp)⟩

/-- Claim C6: a K-Medoids update round accepts a proposed medoid swap for
a cluster if and only if the swap does not increase the maximum member
distance of that cluster (stated for a proposal differing from the
current medoid of an existing cluster, so acceptance is observable on the
center list), and consequently neither one update round, with any
proposal schedule, nor any number of seeded refinement rounds ever
increases the maximum per-cluster member distance relative to the
pre-round state. -/
theorem C6_kmedoids_swap_acceptance [Inhabited α] (d : α → α → ℚ) (X : List α)
    (s : KCState) (hlen : s.track.length = X.length) :
    (∀ (p c m0 : Nat), s.ctrs[c]? = some m0 → p ≠ m0 →
      ((medoidSwapStep d X p c s).ctrs = s.ctrs.set c p ↔
        clusterMaxDist c
            (List.zipWith (fun nd q => if q.1 = c then (c, nd) else q)
              (X.map (fun x => d (X.getD p default) x)) s.track) ≤
          clusterMaxDist c s.track)) ∧
    (∀ (proposals : List Nat) (cp : Nat),
      clusterMaxDist cp (kmedoidsPamUpdate d X proposals s).track ≤
        clusterMaxDist cp s.track) ∧
    (∀ (seed n cp : Nat),
      clusterMaxDist cp (kmedoidsRounds d X seed n s).track ≤
        clusterMaxDist cp s.track) := by
  refine ⟨?_, fun proposals cp => (kmedoidsPamUpdate_mono d X proposals s hlen).2 cp,
    fun seed n cp => (kmedoidsRounds_mono d X seed n s hlen).2 cp⟩
  intro p c m0 hm0 hne
  rw [medoidSwapStep]
  split
  · rename_i hacc
    simp only [true_iff]
    exact hacc
  · rename_i hrej
    constructor
    · intro heq
      exfalso
      have hclt : c < s.ctrs.length := (List.getElem?_eq_some_iff.mp hm0).1
      have hg : (s.ctrs.set c p)[c]? = some p := by
        rw [List.getElem?_set]
        simp [hclt]
      rw [← heq, hm0] at hg
      exact hne ((Option.some.injEq _ _).mp hg).symm
    · intro hcond
      exact absurd hcond hrej

/-- Witness for claim C6: on the two-cluster K-Centers output over the
sample collection, propose item one as a replacement medoid for cluster
zero. -/
theorem C6_kmedoids_swap_acceptance_witness :
    (kcentersState discMetric sampleData ⟨none, some 2, false, 0⟩).track.length =
      sampleData.length ∧
    (kcentersState discMetric sampleData ⟨none, some 2, false, 0⟩).ctrs[0]? = some 0 ∧
    (1 : Nat) ≠ 0 ∧
    ((medoidSwapStep discMetric sampleData 1 0
        (kcentersState discMetric sampleData ⟨none, some 2, false, 0⟩)).ctrs =
      (kcentersState discMetric sampleData ⟨none, some 2, false, 0⟩).ctrs.set 0 1 ↔
        clusterMaxDist 0
            (List.zipWith (fun nd q => if q.1 = 0 then (0, nd) else q)
              (sampleData.map (fun x => discMetric (sampleData.getD 1 default) x))
              (kcentersState discMetric sampleData ⟨none, some 2, false, 0⟩).track) ≤
          clusterMaxDist 0
            (kcentersState discMetric sampleData ⟨none, some 2, false, 0⟩).track) := by
  refine ⟨by decide, by decide, by decide, ?_⟩
  exact (C6_kmedoids_swap_acceptance discMetric sampleData _ (by decide)).1 1 0 0
    (by decide) (by decide)

/-! Partition round-trip machinery. -/

theorem splitByLengths_flatten_take (ls : List Nat) (xs : List β)
    (h : ls.sum ≤ xs.length) :
    (splitByLengths ls xs).flatten = xs.take ls.sum := by
  induction ls generalizing xs with
  | nil => simp [splitByLengths]
  | cons L ls ih =>
      simp only [splitByLengths, List.flatten_cons, List.sum_cons]
      have h2 : ls.sum ≤ (xs.drop L).length := by
        simp only [List.length_drop]
        simp only [List.sum_cons] at h
        omega
      rw [ih (xs.drop L) h2, List.take_add]

theorem splitByLengths_flatten (ls : List Nat) (xs : List β)
    (h : ls.sum = xs.length) : (splitByLengths ls xs).flatten = xs := by
  rw [splitByLengths_flatten_take ls xs (le_of_eq h), h, List.take_length]

theorem locateSegment_correct (ls : List Nat) (c : Nat) (h : c < ls.sum) :
    (locateSegment ls c).1 < ls.length ∧
    (∃ L, ls[(locateSegment ls c).1]? = some L ∧ (locateSegment ls c).2 < L) ∧
    (ls.take (locateSegment ls c).1).sum + (locateSegment ls c).2 = c := by
  induction ls generalizing c with
  | nil => simp at h
  | cons L ls ih =>
      rw [locateSegment]
      by_cases hc : c < L
      · rw [if_pos hc]
        exact ⟨by simp, ⟨L, by simp, hc⟩, by simp⟩
      · rw [if_neg hc]
        have hrec : c - L < ls.sum := by
          simp only [List.sum_cons] at h
          omega
        obtain ⟨h1, ⟨Lr, hLr, hoff⟩, hsum⟩ := ih (c - L) hrec
        refine ⟨by simp only [List.length_cons]; omega, ⟨Lr, ?_, hoff⟩, ?_⟩
        · simpa using hLr
        · simp only [List.take_succ_cons, List.sum_cons]
          omega

/-- Claim C7: when the segment lengths sum to the item count, partition
is a pure reshape: the per-segment assignments and distances concatenate
back to the original flat vectors, the centers are passed through
untouched, and each flat center index is re-expressed as the (segment,
offset) pair determined by the prefix sums of the lengths; when the
lengths do not sum to the item count, partition fails with the
data-validity error. -/
theorem C7_partition_roundtrip (r : ClusterResult α) (lengths : List Nat)
    (hdl : r.distances.length = r.assignments.length) :
    (lengths.sum = r.assignments.length →
      ∃ p, partitionResult r lengths = Except.ok p ∧
        p.assignSegs.flatten = r.assignments ∧
        p.distSegs.flatten = r.distances ∧
        p.centers = r.centers ∧
        p.centerPairs = r.centerIndices.map (locateSegment lengths) ∧
        ∀ ci ∈ r.centerIndices, ci < r.assignments.length →
          (locateSegment lengths ci).1 < lengths.length ∧
          (lengths.take (locateSegment lengths ci).1).sum +
            (locateSegment lengths ci).2 = ci) ∧
    (lengths.sum ≠ r.assignments.length →
      partitionResult r lengths = Except.error EnspError.dataInvalid) := by
  constructor
  · intro hsum
    refine ⟨_, by rw [partitionResult, if_pos hsum], ?_, ?_, rfl, rfl, ?_⟩
    · exact splitByLengths_flatten lengths r.assignments hsum
    · exact splitByLengths_flatten lengths r.distances (by rw [hdl]; exact hsum)
    · intro ci hci hlt
      have hrec := locateSegment_correct lengths ci (by omega)
      exact ⟨hrec.1, hrec.2.2⟩
  · intro hsum
    rw [partitionResult, if_neg hsum]

/-- Witness for claim C7 on the two-cluster result over the sample
collection, with matching and with mismatched segment lengths. -/
theorem C7_partition_roundtrip_witness :
    (resultOfState sampleData
        (kcentersState discMetric sampleData ⟨none, some 2, false, 0⟩)).distances.length =
      (resultOfState sampleData
        (kcentersState discMetric sampleData ⟨none, some 2, false, 0⟩)).assignments.length ∧
    ([2, 2].sum =
      (resultOfState sampleData
        (kcentersState discMetric sampleData ⟨none, some 2, false, 0⟩)).assignments.length →
      ∃ p, partitionResult (resultOfState sampleData
          (kcentersState discMetric sampleData ⟨none, some 2, false, 0⟩)) [2, 2] =
          Except.ok p ∧
        p.assignSegs.flatten = (resultOfState sampleData
          (kcentersState discMetric sampleData ⟨none, some 2, false, 0⟩)).assignments ∧
        p.distSegs.flatten = (resultOfState sampleData
          (kcentersState discMetric sampleData ⟨none, some 2, false, 0⟩)).distances ∧
        p.centers = (resultOfState sampleData
          (kcentersState discMetric sampleData ⟨none, some 2, false, 0⟩)).centers ∧
        p.centerPairs = (resultOfState sampleData
          (kcentersState discMetric sampleData ⟨none, some 2, false, 0⟩)).centerIndices.map
            (locateSegment [2, 2]) ∧
        ∀ ci ∈ (resultOfState sampleData
          (kcentersState discMetric sampleData ⟨none, some 2, false, 0⟩)).centerIndices,
          ci < (resultOfState sampleData
            (kcentersState discMetric sampleData ⟨none, some 2, false, 0⟩)).assignments.length →
          (locateSegment [2, 2] ci).1 < ([2, 2] : List Nat).length ∧
          (([2, 2] : List Nat).take (locateSegment [2, 2] ci).1).sum +
            (locateSegment [2, 2] ci).2 = ci) ∧
    ([1, 2].sum ≠ (resultOfState sampleData
        (kcentersState discMetric sampleData ⟨none, some 2, false, 0⟩)).assignments.length ∧
      partitionResult (resultOfState sampleData
          (kcentersState discMetric sampleData ⟨none, some 2, false, 0⟩)) [1, 2] =
        Except.error EnspError.dataInvalid) := by
  refine ⟨by decide, ?_, by decide, ?_⟩
  · exact (C7_partition_roundtrip _ [2, 2] (by decide)).1
  · exact (C7_partition_roundtrip _ [1, 2] (by decide)).2 (by decide)

/-- Claim C10: the rmsd_cluster application always writes the pickled
centers file; it writes the distances and assignments files exactly when
subsampling is 1 or reassignment is performed, so with the no-reassign
flag and a subsample above 1 only the centers file is written. -/
theorem C10_no_reassign_outputs (subsample : Nat) (noReassign : Bool) :
    (noReassign = true → 1 < subsample →
      mainWrites subsample noReassign = [OutputFile.centersFile]) ∧
    (OutputFile.distancesFile ∈ mainWrites subsample noReassign ↔
      subsample = 1 ∨ noReassign = false) ∧
    (OutputFile.assignmentsFile ∈ mainWrites subsample noReassign ↔
      subsample = 1 ∨ noReassign = false) ∧
    OutputFile.centersFile ∈ mainWrites subsample noReassign := by
  cases noReassign with
  | false =>
      refine ⟨?_, ?_, ?_, ?_⟩
      · intro h
        cases h
      · by_cases hs : subsample = 1 <;> simp [mainWrites, hs]
      · by_cases hs : subsample = 1 <;> simp [mainWrites, hs]
      · by_cases hs : subsample = 1 <;> simp [mainWrites, hs]
  | true =>
      refine ⟨?_, ?_, ?_, ?_⟩
      · intro _ h2
        have hne : ¬ subsample = 1 := by omega
        simp [mainWrites, hne]
      · by_cases hs : subsample = 1 <;> simp [mainWrites, hs]
      · by_cases hs : subsample = 1 <;> simp [mainWrites, hs]
      · by_cases hs : subsample = 1 <;> simp [mainWrites, hs]

/-- Witness for claim C10 with subsampling four and the no-reassign
flag. -/
theorem C10_no_reassign_outputs_witness :
    (true = true) ∧ 1 < 4 ∧ mainWrites 4 true = [OutputFile.centersFile] := by
  refine ⟨rfl, by decide, ?_⟩
  exact (C10_no_reassign_outputs 4 true).1 rfl (by decide)

/-! Sharding lemmas for the distributed equivalence claim. -/

theorem strideEvery_getElem (W : Nat) (hW : 0 < W) (l : List β) (i : Nat) :
    (strideEvery W l)[i]? = l[i * W]? := by
  match l with
  | [] => simp [strideEvery]
  | x :: xs =>
      rw [strideEvery]
      match i with
      | 0 => simp
      | i + 1 =>
          rw [List.getElem?_cons_succ, strideEvery_getElem W hW (xs.drop (W - 1)) i,
            List.getElem?_drop]
          have harith : (i + 1) * W = ((W - 1) + i * W) + 1 := by
            rw [Nat.succ_mul]
            omega
          rw [harith, List.getElem?_cons_succ]
termination_by l.length
decreasing_by simp only [List.length_drop, List.length_cons]; omega

theorem shardsOf_getElem (W : Nat) (l : List β) (w : Nat) (hw : w < W) :
    (shardsOf W l)[w]? = some (strideEvery W (l.drop w)) := by
  rw [shardsOf, List.getElem?_map, List.getElem?_range hw]
  rfl

theorem shardsOf_getElem_none (W : Nat) (l : List β) (w : Nat) (hw : ¬ w < W) :
    (shardsOf W l)[w]? = none := by
  rw [shardsOf, List.getElem?_map]
  have : (List.range W)[w]? = none := by
    rw [List.getElem?_eq_none_iff]
    simpa using Nat.le_of_not_lt hw
  rw [this]
  rfl

theorem shard_getElem (W : Nat) (hW : 0 < W) (l : List β) (w i : Nat) :
    (strideEvery W (l.drop w))[i]? = l[w + i * W]? := by
  rw [strideEvery_getElem W hW, List.getElem?_drop]

theorem strideEvery_map (W : Nat) (hW : 0 < W) (f : β → γ) (l : List β) :
    strideEvery W (l.map f) = (strideEvery W l).map f := by
  apply List.ext_getElem?
  intro i
  rw [List.getElem?_map, strideEvery_getElem W hW, strideEvery_getElem W hW,
    List.getElem?_map]

theorem strideEvery_zipWith (W : Nat) (hW : 0 < W) (f : β → γ → δ)
    (a : List β) (b : List γ) :
    strideEvery W (List.zipWith f a b) =
      List.zipWith f (strideEvery W a) (strideEvery W b) := by
  apply List.ext_getElem?
  intro i
  rw [strideEvery_getElem W hW, List.getElem?_zipWith, List.getElem?_zipWith,
    strideEvery_getElem W hW, strideEvery_getElem W hW]

theorem drop_zipWith (f : β → γ → δ) (a : List β) (b : List γ) (n : Nat) :
    (List.zipWith f a b).drop n = List.zipWith f (a.drop n) (b.drop n) := by
  apply List.ext_getElem?
  intro i
  rw [List.getElem?_drop, List.getElem?_zipWith, List.getElem?_zipWith,
    List.getElem?_drop, List.getElem?_drop]

theorem shardsOf_map (W : Nat) (hW : 0 < W) (f : β → γ) (l : List β) :
    shardsOf W (l.map f) = (shardsOf W l).map (List.map f) := by
  rw [shardsOf, shardsOf, List.map_map]
  apply List.map_congr_left
  intro w _
  simp only [Function.comp]
  rw [← List.map_drop, strideEvery_map W hW]

theorem shardsOf_length_sum (W0 : Nat) (l : List β) :
    ((List.range (W0 + 1)).map
      (fun w => (strideEvery (W0 + 1) (l.drop w)).length)).sum = l.length := by
  induction l with
  | nil => simp [strideEvery]
  | cons x xs ih =>
      rw [List.range_succ_eq_map, List.map_cons, List.sum_cons, List.map_map]
      have hhead : (strideEvery (W0 + 1) ((x :: xs).drop 0)).length =
          (strideEvery (W0 + 1) (xs.drop W0)).length + 1 := by
        rw [List.drop_zero, strideEvery]
        simp
      have htail : (List.range W0).map
          ((fun w => (strideEvery (W0 + 1) ((x :: xs).drop w)).length) ∘ (· + 1)) =
          (List.range W0).map (fun w => (strideEvery (W0 + 1) (xs.drop w)).length) := by
        apply List.map_congr_left
        intro w _
        simp only [Function.comp]
        rw [List.drop_succ_cons]
      rw [hhead, htail]
      have hih := ih
      rw [List.range_succ, List.map_append, List.sum_append] at hih
      simp only [List.map_cons, List.map_nil, List.sum_cons, List.sum_nil] at hih
      simp only [List.length_cons]
      omega

theorem mpiTotalLen_shards (W : Nat) (hW : 0 < W) (t : List (Nat × ℚ)) :
    mpiTotalLen (shardsOf W t) = t.length := by
  obtain ⟨W0, rfl⟩ : ∃ W0, W = W0 + 1 := ⟨W - 1, by omega⟩
  rw [mpiTotalLen, shardsOf, List.map_map]
  exact shardsOf_length_sum W0 t

theorem shardsSum_eq_length (W : Nat) (hW : 0 < W) (l : List β) :
    ((shardsOf W l).map List.length).sum = l.length := by
  obtain ⟨W0, rfl⟩ : ∃ W0, W = W0 + 1 := ⟨W - 1, by omega⟩
  rw [shardsOf, List.map_map]
  exact shardsOf_length_sum W0 l

/-! Characterization of the per-worker candidates and of the
all-reduce. -/

theorem mpiCands_mem (W : Nat) (shs : List (List ℚ)) (w0 : Nat) (p : Nat × ℚ) :
    p ∈ mpiCands W w0 shs ↔
      ∃ (w : Nat) (ds : List ℚ), shs[w]? = some ds ∧ ds ≠ [] ∧
        p = (w0 + w + (farthestPoint ds).1 * W, (farthestPoint ds).2) := by
  induction shs generalizing w0 with
  | nil => simp [mpiCands]
  | cons ds rest ih =>
      rw [mpiCands, List.mem_append]
      constructor
      · intro h
        rcases h with h | h
        · by_cases he : ds.isEmpty
          · rw [if_pos he] at h
            simp at h
          · rw [if_neg he] at h
            simp only [List.mem_singleton] at h
            refine ⟨0, ds, by simp, by simpa using he, ?_⟩
            rw [h]
            simp
        · obtain ⟨w, ds2, hg, hne, hp⟩ := (ih (w0 + 1)).mp h
          refine ⟨w + 1, ds2, by simpa using hg, hne, ?_⟩
          rw [hp]
          have harith : w0 + 1 + w = w0 + (w + 1) := by omega
          rw [harith]
      · rintro ⟨w, ds2, hg, hne, hp⟩
        match w with
        | 0 =>
            left
            simp only [List.getElem?_cons_zero] at hg
            have hds : ds = ds2 := (Option.some.injEq _ _).mp hg
            subst hds
            rw [if_neg (by simpa using hne)]
            simp only [List.mem_singleton]
            rw [hp]
            simp
        | w + 1 =>
            right
            refine (ih (w0 + 1)).mpr ⟨w, ds2, by simpa using hg, hne, ?_⟩
            rw [hp]
            have harith : w0 + (w + 1) = w0 + 1 + w := by omega
            rw [harith]

theorem combineMaxLoc_mem (a b : Nat × ℚ) :
    combineMaxLoc a b = a ∨ combineMaxLoc a b = b := by
  unfold combineMaxLoc
  split
  · right; rfl
  · split
    · left; rfl
    · split
      · left; rfl
      · right; rfl

theorem combineMaxLoc_le_left (a b : Nat × ℚ) : a.2 ≤ (combineMaxLoc a b).2 := by
  unfold combineMaxLoc
  split
  · rename_i h
    exact le_of_lt h
  · split
    · exact le_refl _
    · split
      · exact le_refl _
      · rename_i h1 h2 _
        exact le_of_not_lt h2

theorem combineMaxLoc_le_right (a b : Nat × ℚ) : b.2 ≤ (combineMaxLoc a b).2 := by
  unfold combineMaxLoc
  split
  · exact le_refl _
  · split
    · rename_i _ h
      exact le_of_lt h
    · split
      · rename_i h1 _ _
        exact le_of_not_lt h1
      · exact le_refl _

theorem combineMaxLoc_min_left (a b : Nat × ℚ)
    (h : (combineMaxLoc a b).2 = a.2) : (combineMaxLoc a b).1 ≤ a.1 := by
  unfold combineMaxLoc at h ⊢
  split_ifs at h ⊢ with h1 h2 h3
  · rw [h] at h1
    exact absurd h1 (lt_irrefl _)
  · exact le_refl _
  · exact le_refl _
  · omega

theorem combineMaxLoc_min_right (a b : Nat × ℚ)
    (h : (combineMaxLoc a b).2 = b.2) : (combineMaxLoc a b).1 ≤ b.1 := by
  unfold combineMaxLoc at h ⊢
  split_ifs at h ⊢ with h1 h2 h3
  · exact le_refl _
  · rw [h] at h2
    exact absurd h2 (lt_irrefl _)
  · exact h3
  · exact le_refl _

theorem foldl_combineMaxLoc_spec (cands : List (Nat × ℚ)) (c : Nat × ℚ) :
    (cands.foldl combineMaxLoc c = c ∨ cands.foldl combineMaxLoc c ∈ cands) ∧
    c.2 ≤ (cands.foldl combineMaxLoc c).2 ∧
    (∀ x ∈ cands, x.2 ≤ (cands.foldl combineMaxLoc c).2) ∧
    ((cands.foldl combineMaxLoc c).2 = c.2 → (cands.foldl combineMaxLoc c).1 ≤ c.1) ∧
    (∀ x ∈ cands, (cands.foldl combineMaxLoc c).2 = x.2 →
      (cands.foldl combineMaxLoc c).1 ≤ x.1) := by
  induction cands generalizing c with
  | nil =>
      refine ⟨Or.inl rfl, le_refl _, ?_, fun _ => le_refl _, ?_⟩
      · intro x hx
        simp at hx
      · intro x hx
        simp at hx
  | cons y cs ih =>
      simp only [List.foldl_cons]
      obtain ⟨hmem, hle, hdom, hminc, hminx⟩ := ih (combineMaxLoc c y)
      refine ⟨?_, ?_, ?_, ?_, ?_⟩
      · rcases hmem with h | h
        · rcases combineMaxLoc_mem c y with h2 | h2
          · left
            rw [h, h2]
          · right
            rw [h, h2]
            exact List.mem_cons_self _ _
        · right
          exact List.mem_cons_of_mem _ h
      · exact le_trans (combineMaxLoc_le_left c y) hle
      · intro x hx
        rcases List.mem_cons.mp hx with h | h
        · subst h
          exact le_trans (combineMaxLoc_le_right c x) hle
        · exact hdom x h
      · intro hv
        have h1 : (combineMaxLoc c y).2 = c.2 :=
          le_antisymm (hv ▸ hle) (combineMaxLoc_le_left c y)
        have h2 : (cs.foldl combineMaxLoc (combineMaxLoc c y)).2 =
            (combineMaxLoc c y).2 := by
          rw [hv, h1]
        exact le_trans (hminc h2) (combineMaxLoc_min_left c y h1)
      · intro x hx hv
        rcases List.mem_cons.mp hx with h | h
        · subst h
          have h1 : (combineMaxLoc c x).2 = x.2 :=
            le_antisymm (hv ▸ hle) (combineMaxLoc_le_right c x)
          have h2 : (cs.foldl combineMaxLoc (combineMaxLoc c x)).2 =
              (combineMaxLoc c x).2 := by
            rw [hv, h1]
          exact le_trans (hminc h2) (combineMaxLoc_min_right c x h1)
        · exact hminx x h hv

theorem reduceMaxLoc_spec (cands : List (Nat × ℚ)) (c : Nat × ℚ)
    (h : reduceMaxLoc cands = some c) :
    c ∈ cands ∧ (∀ x ∈ cands, x.2 ≤ c.2) ∧
      (∀ x ∈ cands, c.2 = x.2 → c.1 ≤ x.1) := by
  match cands with
  | [] => simp [reduceMaxLoc] at h
  | c0 :: cs =>
      rw [reduceMaxLoc] at h
      have hc : c = cs.foldl combineMaxLoc c0 := ((Option.some.injEq _ _).mp h).symm
      subst hc
      obtain ⟨hmem, hle, hdom, hminc, hminx⟩ := foldl_combineMaxLoc_spec cs c0
      refine ⟨?_, ?_, ?_⟩
      · rcases hmem with h2 | h2
        · rw [h2]
          exact List.mem_cons_self _ _
        · exact List.mem_cons_of_mem _ h2
      · intro x hx
        rcases List.mem_cons.mp hx with h2 | h2
        · subst h2
          exact hle
        · exact hdom x h2
      · intro x hx hv
        rcases List.mem_cons.mp hx with h2 | h2
        · subst h2
          exact hminc hv
        · exact hminx x h2 hv

theorem reduceMaxLoc_eq_none (cands : List (Nat × ℚ))
    (h : reduceMaxLoc cands = none) : cands = [] := by
  match cands with
  | [] => rfl
  | c0 :: cs => simp [reduceMaxLoc] at h

/-- Central collective-correctness lemma: reducing the per-worker local
earliest maxima of the row shards with the max-then-lowest-global-index
combiner yields exactly the earliest maximum of the flat distance
vector. -/
theorem reduce_shards_eq_farthest (W : Nat) (hW : 0 < W) (ds : List ℚ)
    (hne : ds ≠ []) :
    reduceMaxLoc (mpiCands W 0 (shardsOf W ds)) = some (farthestPoint ds) := by
  have hsh0 : (shardsOf W ds)[0]? = some (strideEvery W ds) := by
    have := shardsOf_getElem W ds 0 hW
    rw [List.drop_zero] at this
    exact this
  have hsh0ne : strideEvery W ds ≠ [] := by
    match ds, hne with
    | v :: vs, _ =>
        rw [strideEvery]
        simp
  have hc0 : ((0 : Nat) + 0 + (farthestPoint (strideEvery W ds)).1 * W,
      (farthestPoint (strideEvery W ds)).2) ∈ mpiCands W 0 (shardsOf W ds) :=
    (mpiCands_mem W (shardsOf W ds) 0 _).mpr ⟨0, strideEvery W ds, hsh0, hsh0ne, rfl⟩
  rcases hred : reduceMaxLoc (mpiCands W 0 (shardsOf W ds)) with _ | best
  · have hz := reduceMaxLoc_eq_none _ hred
    rw [hz] at hc0
    simp at hc0
  obtain ⟨hmem, hdom, hmin⟩ := reduceMaxLoc_spec _ best hred
  have hbestFar : IsFarthest ds best := by
    obtain ⟨w, shd, hg, hshne, hbp⟩ := (mpiCands_mem W (shardsOf W ds) 0 best).mp hmem
    have hwW : w < W := by
      have hlt := (List.getElem?_eq_some_iff.mp hg).1
      rw [shardsOf, List.length_map, List.length_range] at hlt
      exact hlt
    have hshd : shd = strideEvery W (ds.drop w) := by
      rw [shardsOf_getElem W ds w hwW] at hg
      exact ((Option.some.injEq _ _).mp hg).symm
    subst hshd
    have hbp2 : best = ((w + (farthestPoint (strideEvery W (ds.drop w))).1 * W : Nat),
        (farthestPoint (strideEvery W (ds.drop w))).2) := by
      rw [hbp]
      have harith : 0 + w + (farthestPoint (strideEvery W (ds.drop w))).1 * W =
          w + (farthestPoint (strideEvery W (ds.drop w))).1 * W := by omega
      rw [harith]
    subst hbp2
    obtain ⟨hlat, hldom, hlbefore⟩ := farthestPoint_isFarthest _ hshne
    have hcand : ∀ (j : Nat) (v : ℚ), ds[j]? = some v →
        (strideEvery W (ds.drop (j % W)))[j / W]? = some v ∧
        strideEvery W (ds.drop (j % W)) ≠ [] ∧
        ((0 : Nat) + j % W + (farthestPoint (strideEvery W (ds.drop (j % W)))).1 * W,
          (farthestPoint (strideEvery W (ds.drop (j % W)))).2) ∈
            mpiCands W 0 (shardsOf W ds) := by
      intro j v hj
      have harith : j % W + (j / W) * W = j := by
        rw [Nat.mul_comm]
        exact Nat.mod_add_div j W
      have hshard : (strideEvery W (ds.drop (j % W)))[j / W]? = some v := by
        rw [shard_getElem W hW, harith]
        exact hj
      have hshne2 : strideEvery W (ds.drop (j % W)) ≠ [] := by
        have hl := (List.getElem?_eq_some_iff.mp hshard).1
        exact List.ne_nil_of_length_pos (Nat.lt_of_le_of_lt (Nat.zero_le _) hl)
      refine ⟨hshard, hshne2, ?_⟩
      exact (mpiCands_mem W (shardsOf W ds) 0 _).mpr
        ⟨j % W, strideEvery W (ds.drop (j % W)),
          shardsOf_getElem W ds (j % W) (Nat.mod_lt j hW), hshne2, rfl⟩
    have hdomAll : ∀ (j : Nat) (v : ℚ), ds[j]? = some v →
        v ≤ (farthestPoint (strideEvery W (ds.drop w))).2 := by
      intro j v hj
      obtain ⟨hshard, hshne2, hcmem⟩ := hcand j v hj
      refine le_trans (farthestPoint_dominates _ (j / W) v hshard) ?_
      exact hdom ((0 : Nat) + j % W +
        (farthestPoint (strideEvery W (ds.drop (j % W)))).1 * W,
        (farthestPoint (strideEvery W (ds.drop (j % W)))).2) hcmem
    refine ⟨?_, hdomAll, ?_⟩
    · rw [← shard_getElem W hW ds w]
      exact hlat
    · intro j v hj hjlt
      rcases lt_or_eq_of_le (hdomAll j v hj) with hlt | heq
      · exact hlt
      · exfalso
        obtain ⟨hshard, hshne2, hcmem⟩ := hcand j v hj
        have hfw : (farthestPoint (strideEvery W (ds.drop (j % W)))).2 =
            (farthestPoint (strideEvery W (ds.drop w))).2 := by
          refine le_antisymm (hdom ((0 : Nat) + j % W +
            (farthestPoint (strideEvery W (ds.drop (j % W)))).1 * W,
            (farthestPoint (strideEvery W (ds.drop (j % W)))).2) hcmem) ?_
          rw [← heq]
          exact farthestPoint_dominates _ (j / W) v hshard
        have hfle : (farthestPoint (strideEvery W (ds.drop (j % W)))).1 ≤ j / W := by
          by_contra hgt
          have := farthestPoint_before _ (j / W) v hshard (by omega)
          rw [heq, hfw] at this
          exact absurd this (lt_irrefl _)
        have hminr := hmin ((0 : Nat) + j % W +
          (farthestPoint (strideEvery W (ds.drop (j % W)))).1 * W,
          (farthestPoint (strideEvery W (ds.drop (j % W)))).2) hcmem (by rw [hfw])
        have harith : j % W + (j / W) * W = j := by
          rw [Nat.mul_comm]
          exact Nat.mod_add_div j W
        have hc1 : (0 : Nat) + j % W +
            (farthestPoint (strideEvery W (ds.drop (j % W)))).1 * W ≤ j := by
          rw [← harith]
          have := Nat.mul_le_mul_right W hfle
          omega
        simp only [] at hminr
        omega
  have hbe := isFarthest_unique ds best (farthestPoint ds) hbestFar
    (farthestPoint_isFarthest ds hne)
  rw [hbe]

theorem shardGet_eq [Inhabited α] (W : Nat) (hW : 0 < W) (l : List α) (j : Nat)
    (_hj : j < l.length) :
    shardGet (shardsOf W l) (j % W) (j / W) = l.getD j default := by
  rw [shardGet]
  have hsh : (shardsOf W l).getD (j % W) [] = strideEvery W (l.drop (j % W)) := by
    rw [List.getD_eq_getElem?_getD, shardsOf_getElem W l (j % W) (Nat.mod_lt j hW)]
    rfl
  rw [hsh, List.getD_eq_getElem?_getD, List.getD_eq_getElem?_getD,
    shard_getElem W hW]
  have harith : j % W + (j / W) * W = j := by
    rw [Nat.mul_comm]
    exact Nat.mod_add_div j W
  rw [harith]

theorem shardsOf_trackerUpd (W : Nat) (hW : 0 < W) (L : Nat) (f : α → ℚ)
    (A : List α) (B : List (Nat × ℚ)) :
    List.zipWith (fun shw tw => trackerUpd L (shw.map f) tw)
        (shardsOf W A) (shardsOf W B) =
      shardsOf W (trackerUpd L (A.map f) B) := by
  apply List.ext_getElem?
  intro w
  rw [List.getElem?_zipWith]
  by_cases hw : w < W
  · rw [shardsOf_getElem W A w hw, shardsOf_getElem W B w hw,
      shardsOf_getElem W _ w hw]
    have hsh : strideEvery W ((trackerUpd L (A.map f) B).drop w) =
        trackerUpd L ((strideEvery W (A.drop w)).map f)
          (strideEvery W (B.drop w)) := by
      unfold trackerUpd
      rw [drop_zipWith, strideEvery_zipWith W hW, ← List.map_drop,
        strideEvery_map W hW]
    rw [hsh]
  · rw [shardsOf_getElem_none W A w hw, shardsOf_getElem_none W B w hw,
      shardsOf_getElem_none W _ w hw]

theorem kcMpiInit_eq [Inhabited α] (d : α → α → ℚ) (X : List α) (cfg : KCfg)
    (W : Nat) (hW : 0 < W) (hX : X ≠ []) :
    kcMpiInit d (shardsOf W X) W cfg =
      { ctrs := (kcInit d X cfg).ctrs.map (fun g => (g % W, g / W)),
        tracks := shardsOf W (kcInit d X cfg).track } := by
  have hn : ((shardsOf W X).map List.length).sum = X.length :=
    shardsSum_eq_length W hW X
  have hpos : 0 < X.length := List.length_pos.mpr hX
  have hjlt : (if cfg.randomFirstCenter then cfg.seed % X.length else 0) <
      X.length := by
    split
    · exact Nat.mod_lt _ hpos
    · exact hpos
  simp only [kcMpiInit, kcInit, hn]
  have hfeat : shardGet (shardsOf W X)
      ((if cfg.randomFirstCenter then cfg.seed % X.length else 0) % W)
      ((if cfg.randomFirstCenter then cfg.seed % X.length else 0) / W) =
      X.getD (if cfg.randomFirstCenter then cfg.seed % X.length else 0) default :=
    shardGet_eq W hW X _ hjlt
  rw [hfeat]
  refine congrArg₂ MpiState.mk ?_ ?_
  · rfl
  · rw [shardsOf_map W hW]

theorem kcMpiLoop_eq [Inhabited α] (d : α → α → ℚ) (X : List α) (cfg : KCfg)
    (W : Nat) (hW : 0 < W) (hX : X ≠ []) (fuel : Nat) :
    ∀ (s : KCState), KCBase d X s →
      kcMpiLoop d (shardsOf W X) W cfg fuel
          { ctrs := s.ctrs.map (fun g => (g % W, g / W)),
            tracks := shardsOf W s.track } =
        { ctrs := (kcLoop d X cfg fuel s).ctrs.map (fun g => (g % W, g / W)),
          tracks := shardsOf W (kcLoop d X cfg fuel s).track } := by
  induction fuel with
  | zero =>
      intro s hb
      rfl
  | succ fuel ih =>
      intro s hb
      have htne : s.track.map Prod.snd ≠ [] := by
        intro he
        have htr : s.track = [] := by simpa using he
        have hlen := hb.lenEq
        rw [htr] at hlen
        simp at hlen
        exact hX (List.eq_nil_of_length_eq_zero hlen.symm)
      have hred : reduceMaxLoc (mpiCands W 0
          ((shardsOf W s.track).map (List.map Prod.snd))) =
          some (farthestPoint (s.track.map Prod.snd)) := by
        rw [← shardsOf_map W hW]
        exact reduce_shards_eq_farthest W hW _ htne
      rw [kcMpiLoop, kcLoop]
      simp only [hred, List.length_map, mpiTotalLen_shards W hW, hb.lenEq]
      split
      · rfl
      · split
        · rfl
        · split
          · rfl
          · rename_i hnrad hncnt hnex
            have hlt : s.ctrs.length < X.length := by omega
            have hjlt := kcFar_lt hb hlt
            have hfeat : shardGet (shardsOf W X)
                ((farthestPoint (s.track.map Prod.snd)).1 % W)
                ((farthestPoint (s.track.map Prod.snd)).1 / W) =
                X.getD (farthestPoint (s.track.map Prod.snd)).1 default :=
              shardGet_eq W hW X _ hjlt
            rw [hfeat, shardsOf_trackerUpd W hW]
            have hctrs : s.ctrs.map (fun g => ((g % W, g / W) : Nat × Nat)) ++
                [((farthestPoint (s.track.map Prod.snd)).1 % W,
                  (farthestPoint (s.track.map Prod.snd)).1 / W)] =
                (s.ctrs ++ [(farthestPoint (s.track.map Prod.snd)).1]).map
                  (fun g => (g % W, g / W)) := by
              rw [List.map_append]
              rfl
            rw [hctrs]
            exact ih _ (kcBase_step d X s hb _ hjlt)

/-- Claim C5: for a data collection row-sharded across W workers, worker
w holding rows w, w + W, w + 2W and so on, the distributed K-Centers run
returns per-worker tracker slices and (rank, local index) center
identifiers that are exactly the row shards of the single-process run on
the full collection with the same configuration, its flat center indices
translated to (rank, local index) pairs; reassembling global row j from
worker j mod W at local row j div W recovers the flat distances and
assignments, and translating each (rank, local) identifier to
local times W plus rank recovers the flat center indices. -/
theorem C5_mpi_equivalence [Inhabited α] (d : α → α → ℚ) (X : List α)
    (cfg : KCfg) (W : Nat) (hW : 0 < W) (hX : X ≠ []) :
    kcentersMpi d (shardsOf W X) W cfg =
      { ctrs := (kcentersState d X cfg).ctrs.map (fun g => (g % W, g / W)),
        tracks := shardsOf W (kcentersState d X cfg).track } ∧
    (kcentersMpi d (shardsOf W X) W cfg).ctrs.map (fun p => p.2 * W + p.1) =
      (kcentersState d X cfg).ctrs ∧
    ∀ (j : Nat), j < X.length →
      ((kcentersMpi d (shardsOf W X) W cfg).tracks.getD (j % W) [])[j / W]? =
        (kcentersState d X cfg).track[j]? := by
  have hmain : kcentersMpi d (shardsOf W X) W cfg =
      { ctrs := (kcentersState d X cfg).ctrs.map (fun g => (g % W, g / W)),
        tracks := shardsOf W (kcentersState d X cfg).track } := by
    rw [kcentersMpi, kcMpiInit_eq d X cfg W hW hX, shardsSum_eq_length W hW]
    exact kcMpiLoop_eq d X cfg W hW hX X.length _ (kcInit_base d X cfg hX)
  refine ⟨hmain, ?_, ?_⟩
  · rw [hmain]
    simp only [List.map_map]
    have hid : ∀ g ∈ (kcentersState d X cfg).ctrs,
        ((fun p : Nat × Nat => p.2 * W + p.1) ∘ (fun g => (g % W, g / W))) g =
          id g := by
      intro g _
      simp only [Function.comp, id]
      rw [Nat.mul_comm]
      exact Nat.div_add_mod g W
    rw [List.map_congr_left hid, List.map_id]
  · intro j hj
    rw [hmain]
    have hsh : (shardsOf W (kcentersState d X cfg).track).getD (j % W) [] =
        strideEvery W ((kcentersState d X cfg).track.drop (j % W)) := by
      rw [List.getD_eq_getElem?_getD,
        shardsOf_getElem W _ (j % W) (Nat.mod_lt j hW)]
      rfl
    rw [hsh, shard_getElem W hW]
    have harith : j % W + (j / W) * W = j := by
      rw [Nat.mul_comm]
      exact Nat.mod_add_div j W
    rw [harith]

/-- Witness for claim C5 at the discrete metric, the sample collection,
two workers and a two-cluster configuration. -/
theorem C5_mpi_equivalence_witness :
    (0 : Nat) < 2 ∧ sampleData ≠ [] ∧
    kcentersMpi discMetric (shardsOf 2 sampleData) 2 ⟨none, some 2, false, 0⟩ =
      { ctrs := (kcentersState discMetric sampleData
          ⟨none, some 2, false, 0⟩).ctrs.map (fun g => (g % 2, g / 2)),
        tracks := shardsOf 2 (kcentersState discMetric sampleData
          ⟨none, some 2, false, 0⟩).track } := by
  refine ⟨by decide, by decide, ?_⟩
  exact (C5_mpi_equivalence discMetric sampleData ⟨none, some 2, false, 0⟩ 2
    (by decide) (by decide)).1

end Enspara
